import Mathlib

/-!
Shallow embedding of the OS-visualization-platform core engines
(src/core/memory.py, src/core/scheduler.py, src/core/process.py,
src/core/synchronization.py) and proofs about them.

Machine numbers: Python ints are unbounded, so they are embedded as
Nat/Int; Python floats used as simulation times are embedded as Rat
(the algorithms only add, subtract and compare them).
-/

-- The batteries Rat operations are marked irreducible, which blocks
-- kernel evaluation of concrete runs; restore reducibility so that
-- `decide`/`rfl` can compute with rational simulation times.
set_option allowUnsafeReducibility true
attribute [semireducible] Rat.add Rat.mul Rat.sub Rat.neg Rat.inv Rat.div Rat.blt

namespace PageRep

/-- Mirrors `PageReplacementAlgorithm` (memory.py). -/
inductive Alg where
  | FIFO
  | LRU
  | OPT
  | CLOCK
deriving DecidableEq, Repr

/-- Mirrors the dataclass `PageFrame` (memory.py): `frame_id`,
`page_id` (-1 = empty), `is_free`. -/
structure PageFrame where
  frameId : Nat
  pageId : Int := -1
  isFree : Bool := true
deriving DecidableEq, Repr

/-- State of a `PageReplacer` object (memory.py): its mutable fields.
`referenceBits` embeds the Python dict as an association list. -/
structure Replacer where
  frameCount : Nat
  frames : List PageFrame
  pageFaults : Nat
  pageHits : Nat
  accessHistory : List (Int × Bool × Int)
  fifoQueue : List Int
  lruOrder : List Int
  clockPointer : Nat
  referenceBits : List (Int × Nat)
deriving DecidableEq, Repr

/-- `PageReplacer._init_frames`. -/
def initReplacer (frameCount : Nat) : Replacer :=
  { frameCount := frameCount
    frames := (List.range frameCount).map (fun i => { frameId := i })
    pageFaults := 0
    pageHits := 0
    accessHistory := []
    fifoQueue := []
    lruOrder := []
    clockPointer := 0
    referenceBits := [] }

/-- Dict read with default: `self.reference_bits.get(page, 0)`. -/
def bitsGet (bits : List (Int × Nat)) (k : Int) : Nat :=
  match bits.find? (fun kv => kv.1 == k) with
  | some kv => kv.2
  | none => 0

/-- Dict write `self.reference_bits[k] = v` (update in place, or append). -/
def bitsSet (bits : List (Int × Nat)) (k : Int) (v : Nat) : List (Int × Nat) :=
  if bits.any (fun kv => kv.1 == k) then
    bits.map (fun kv => if kv.1 == k then (k, v) else kv)
  else
    bits ++ [(k, v)]

/-- Dict delete `del self.reference_bits[k]` (a dict key occurs once). -/
def bitsErase (bits : List (Int × Nat)) (k : Int) : List (Int × Nat) :=
  bits.filter (fun kv => !(kv.1 == k))

/-- The free-frame loop of `access_page`: the first free frame receives
the page and becomes occupied. -/
def occupyFirstFree (frames : List PageFrame) (page : Int) : List PageFrame :=
  match frames with
  | [] => []
  | f :: rest =>
    if f.isFree then { f with pageId := page, isFree := false } :: rest
    else f :: occupyFirstFree rest page

/-- The frame-update loop of `_fifo_replace`/`_lru_replace`/`_opt_replace`:
the first frame holding `old` gets `new`, then break. -/
def replaceFramePage (frames : List PageFrame) (old new : Int) : List PageFrame :=
  match frames with
  | [] => []
  | f :: rest =>
    if f.pageId == old then { f with pageId := new } :: rest
    else f :: replaceFramePage rest old new

/-- Write `new` into the frame at list index `i` (CLOCK victim slot). -/
def setFrameAt (frames : List PageFrame) (i : Nat) (new : Int) : List PageFrame :=
  frames.modify (fun f => { f with pageId := new }) i

/-- `PageReplacer._add_page`. -/
def addPage (st : Replacer) (page : Int) (alg : Alg) : Replacer :=
  match alg with
  | .FIFO => { st with fifoQueue := st.fifoQueue ++ [page] }
  | .LRU => { st with lruOrder := st.lruOrder ++ [page] }
  | .CLOCK => { st with referenceBits := bitsSet st.referenceBits page 1 }
  | .OPT => st

/-- `PageReplacer._update_access`. -/
def updateAccess (st : Replacer) (page : Int) (alg : Alg) : Replacer :=
  match alg with
  | .LRU => { st with lruOrder := (st.lruOrder.erase page) ++ [page] }
  | .CLOCK => { st with referenceBits := bitsSet st.referenceBits page 1 }
  | _ => st

/-- `PageReplacer._fifo_replace`. `none` embeds the IndexError the source
would raise popping an empty queue. -/
def fifoReplace (st : Replacer) (new : Int) : Option (Int × Replacer) :=
  match st.fifoQueue with
  | [] => none
  | old :: q =>
    some (old, { st with
      frames := replaceFramePage st.frames old new
      fifoQueue := q ++ [new] })

/-- `PageReplacer._lru_replace`. -/
def lruReplace (st : Replacer) (new : Int) : Option (Int × Replacer) :=
  match st.lruOrder with
  | [] => none
  | old :: q =>
    some (old, { st with
      frames := replaceFramePage st.frames old new
      lruOrder := q ++ [new] })

/-- Next-use distance of a page in the future sequence:
`future_access.index(page)` when present, infinity (`none`) otherwise. -/
def optDistance (future : List Int) (page : Int) : Option Nat :=
  future.indexOf? page

/-- Strict comparison used by `_opt_replace` (`distance > max_distance`),
with `none` standing for the float infinity. -/
def distGt (a b : Option Nat) : Bool :=
  match a, b with
  | none, none => false
  | none, some _ => true
  | some _, none => false
  | some x, some y => y < x

/-- The victim-selection loop of `_opt_replace` over the resident pages. -/
def optFold (future : List Int) (pages : List Int) (victim : Int)
    (best : Option Nat) : Int :=
  match pages with
  | [] => victim
  | p :: rest =>
    if distGt (optDistance future p) best then
      optFold future rest p (optDistance future p)
    else
      optFold future rest victim best

/-- `PageReplacer._opt_replace`. `none` embeds the IndexError of
`in_memory[0]` when no frame is occupied. -/
def optReplace (st : Replacer) (new : Int) (future : List Int) :
    Option (Int × Replacer) :=
  match (st.frames.filter (fun f => !f.isFree)).map (fun f => f.pageId) with
  | [] => none
  | p0 :: rest =>
    let victim := optFold future rest p0 (optDistance future p0)
    some (victim, { st with frames := replaceFramePage st.frames victim new })

/-- The sweep loop of `_clock_replace`, fuelled: the source loop is
unbounded but finds a victim within `2 * frame_count + 1` probes, since
every probe either evicts or clears a reference bit to 0.  `none` embeds
both the IndexError on an empty frame list and fuel exhaustion
(unreachable for a positive frame count). -/
def clockSweep (fuel : Nat) (st : Replacer) (new : Int) :
    Option (Int × Replacer) :=
  match fuel with
  | 0 => none
  | fuel + 1 =>
    match st.frames.get? st.clockPointer with
    | none => none
    | some f =>
      let page := f.pageId
      if bitsGet st.referenceBits page == 0 then
        some (page, { st with
          frames := setFrameAt st.frames st.clockPointer new
          referenceBits := bitsErase (bitsSet st.referenceBits new 1) page
          clockPointer := (st.clockPointer + 1) % st.frameCount })
      else
        clockSweep fuel { st with
          referenceBits := bitsSet st.referenceBits page 0
          clockPointer := (st.clockPointer + 1) % st.frameCount } new

/-- `PageReplacer._clock_replace`. -/
def clockReplace (st : Replacer) (new : Int) : Option (Int × Replacer) :=
  clockSweep (2 * st.frameCount + 1) st new

/-- `PageReplacer.access_page`: returns (hit, replaced page, new state);
`none` embeds an uncaught exception in the source. -/
def accessPage (st : Replacer) (page : Int) (alg : Alg)
    (future : List Int) : Option (Bool × Int × Replacer) :=
  if st.frames.any (fun f => f.pageId == page) then
    let st := { st with pageHits := st.pageHits + 1 }
    let st := updateAccess st page alg
    some (true, -1,
      { st with accessHistory := st.accessHistory ++ [(page, true, -1)] })
  else
    let st := { st with pageFaults := st.pageFaults + 1 }
    if st.frames.any (fun f => f.isFree) then
      let st := { st with frames := occupyFirstFree st.frames page }
      let st := addPage st page alg
      some (false, -1,
        { st with accessHistory := st.accessHistory ++ [(page, false, -1)] })
    else
      let rep :=
        match alg with
        | .FIFO => fifoReplace st page
        | .LRU => lruReplace st page
        | .OPT => optReplace st page future
        | .CLOCK => clockReplace st page
      match rep with
      | none => none
      | some (old, st) =>
        some (false, old,
          { st with accessHistory := st.accessHistory ++ [(page, false, old)] })

/-- `PageReplacer.get_frame_state`. -/
def getFrameState (st : Replacer) : List Int :=
  st.frames.map (fun f => f.pageId)

/-- `PageReplacer.get_hit_rate`: note the source multiplies by 100. -/
def getHitRate (st : Replacer) : ℚ :=
  let total := st.pageFaults + st.pageHits
  if total = 0 then 0
  else (st.pageHits : ℚ) / (total : ℚ) * 100

/-- One per-step snapshot dict of `run_sequence`. -/
structure Step where
  page : Int
  hit : Bool
  replaced : Int
  frameState : List Int
  pageFaults : Nat
  pageHits : Nat
deriving DecidableEq, Repr

/-- The loop of `run_sequence` over the remaining reference string.
The OPT future sequence is `page_sequence[i+1:]`, i.e. the tail. -/
def runSeqGo (alg : Alg) (seq : List Int) (st : Replacer)
    (acc : List Step) : Option (List Step × Replacer) :=
  match seq with
  | [] => some (acc, st)
  | p :: rest =>
    match accessPage st p alg (if alg = .OPT then rest else []) with
    | none => none
    | some (hit, replaced, st) =>
      runSeqGo alg rest st (acc ++
        [{ page := p, hit := hit, replaced := replaced
           frameState := getFrameState st
           pageFaults := st.pageFaults, pageHits := st.pageHits }])

/-- `PageReplacer.run_sequence`: resets all state, then processes the whole
sequence; returns the step list and the final replacer state. -/
def runSequence (frameCount : Nat) (seq : List Int) (alg : Alg) :
    Option (List Step × Replacer) :=
  runSeqGo alg seq (initReplacer frameCount) []

end PageRep

namespace Mem

/-- Mirrors `AllocationAlgorithm` (memory.py). -/
inductive AllocAlg where
  | FIRST_FIT
  | BEST_FIT
  | WORST_FIT
  | NEXT_FIT
deriving DecidableEq, Repr

/-- Mirrors the dataclass `MemoryBlock` (memory.py): contiguous range
`[start, start+size)`, free flag, owning process name (free blocks keep
the default empty name). -/
structure MemoryBlock where
  start : Nat
  size : Nat
  isFree : Bool
  processName : String := ""
deriving DecidableEq, Repr

/-- Mirrors the dataclass `MemoryRequest`. -/
structure MemoryRequest where
  processName : String
  size : Nat
deriving DecidableEq, Repr

/-- State of a `MemoryAllocator` object: block list, allocation history
(operation label, process, success) and the next-fit rotating pointer. -/
structure Allocator where
  totalSize : Nat
  blocks : List MemoryBlock
  allocationHistory : List (String × String × Bool)
  nextFitPointer : Nat
deriving DecidableEq, Repr

/-- `MemoryAllocator._init_memory`: one big free block. -/
def initAllocator (totalSize : Nat) : Allocator :=
  { totalSize := totalSize
    blocks := [{ start := 0, size := totalSize, isFree := true }]
    allocationHistory := []
    nextFitPointer := 0 }

/-- `MemoryAllocator._split_block` at list index `i`: the chosen block
becomes allocated with exactly the requested size; a positive remainder
becomes a new adjacent free block. -/
def splitBlock (blocks : List MemoryBlock) (i : Nat) (req : MemoryRequest) :
    List MemoryBlock :=
  match blocks, i with
  | [], _ => []
  | b :: rest, 0 =>
    let alloc : MemoryBlock :=
      { start := b.start, size := req.size, isFree := false
        processName := req.processName }
    if 0 < b.size - req.size then
      alloc ::
        { start := b.start + req.size, size := b.size - req.size
          isFree := true } :: rest
    else
      alloc :: rest
  | b :: rest, i + 1 => b :: splitBlock rest i req

/-- Index-search loop of `_first_fit`: first free block large enough. -/
def firstFitGo (req : MemoryRequest) : List MemoryBlock → Nat → Option Nat
  | [], _ => none
  | b :: rest, i =>
    if b.isFree && req.size ≤ b.size then some i
    else firstFitGo req rest (i + 1)

def firstFitIdx (blocks : List MemoryBlock) (req : MemoryRequest) : Option Nat :=
  firstFitGo req blocks 0

/-- Index-search loop of `_best_fit`: minimal sufficient free block,
first found on ties (`best` carries the running (index, size), `none`
standing for the initial infinite best size). -/
def bestFitGo (req : MemoryRequest) : List MemoryBlock → Nat →
    Option (Nat × Nat) → Option Nat
  | [], _, best => best.map (fun ib => ib.1)
  | b :: rest, i, best =>
    if b.isFree && req.size ≤ b.size &&
        (match best with | none => true | some ib => b.size < ib.2) then
      bestFitGo req rest (i + 1) (some (i, b.size))
    else
      bestFitGo req rest (i + 1) best

def bestFitIdx (blocks : List MemoryBlock) (req : MemoryRequest) : Option Nat :=
  bestFitGo req blocks 0 none

/-- Index-search loop of `_worst_fit`: maximal free block that fits,
first found on ties (`none` standing for the initial -1 worst size). -/
def worstFitGo (req : MemoryRequest) : List MemoryBlock → Nat →
    Option (Nat × Nat) → Option Nat
  | [], _, worst => worst.map (fun ib => ib.1)
  | b :: rest, i, worst =>
    if b.isFree && req.size ≤ b.size &&
        (match worst with | none => true | some ib => ib.2 < b.size) then
      worstFitGo req rest (i + 1) (some (i, b.size))
    else
      worstFitGo req rest (i + 1) worst

def worstFitIdx (blocks : List MemoryBlock) (req : MemoryRequest) : Option Nat :=
  worstFitGo req blocks 0 none

/-- Offset loop of `_next_fit`: probe `(pointer + offset) % n` for
`offset = 0 .. n-1`, first free block large enough wins. -/
def nextFitGo (blocks : List MemoryBlock) (req : MemoryRequest) (ptr : Nat) :
    Nat → Nat → Option Nat
  | 0, _ => none
  | k + 1, off =>
    match blocks.get? ((ptr + off) % blocks.length) with
    | none => none
    | some b =>
      if b.isFree && req.size ≤ b.size then some ((ptr + off) % blocks.length)
      else nextFitGo blocks req ptr k (off + 1)

def nextFitIdx (blocks : List MemoryBlock) (req : MemoryRequest) (ptr : Nat) :
    Option Nat :=
  nextFitGo blocks req ptr blocks.length 0

/-- `MemoryAllocator.allocate` dispatching on the strategy; returns the
success flag and the new allocator state.  On success the next-fit
pointer is updated only by the NEXT_FIT strategy, as in the source. -/
def allocate (st : Allocator) (req : MemoryRequest) (alg : AllocAlg) :
    Bool × Allocator :=
  let idx :=
    match alg with
    | .FIRST_FIT => firstFitIdx st.blocks req
    | .BEST_FIT => bestFitIdx st.blocks req
    | .WORST_FIT => worstFitIdx st.blocks req
    | .NEXT_FIT => nextFitIdx st.blocks req st.nextFitPointer
  match idx with
  | some i =>
    (true, { st with
      blocks := splitBlock st.blocks i req
      nextFitPointer := if alg = .NEXT_FIT then i else st.nextFitPointer
      allocationHistory :=
        st.allocationHistory ++ [("分配", req.processName, true)] })
  | none =>
    (false, { st with
      allocationHistory :=
        st.allocationHistory ++ [("分配", req.processName, false)] })

/-- `MemoryAllocator._merge_free_blocks`: left-to-right pass merging each
adjacent pair of free blocks (staying in place after a merge). -/
def mergeFreeBlocks : List MemoryBlock → List MemoryBlock
  | [] => []
  | [b] => [b]
  | a :: b :: rest =>
    if a.isFree && b.isFree then
      mergeFreeBlocks ({ a with size := a.size + b.size } :: rest)
    else
      a :: mergeFreeBlocks (b :: rest)
termination_by l => l.length
decreasing_by all_goals simp_arith

/-- `MemoryAllocator.deallocate`: free every block owned by the name,
then merge; returns whether any block matched. -/
def deallocate (st : Allocator) (name : String) : Bool × Allocator :=
  let found := st.blocks.any (fun b => b.processName == name)
  let blocks := st.blocks.map (fun b =>
    if b.processName == name then { b with isFree := true, processName := "" }
    else b)
  if found then
    (true, { st with
      blocks := mergeFreeBlocks blocks
      allocationHistory := st.allocationHistory ++ [("释放", name, true)] })
  else
    (false, st)

/-- One external call to the allocator. -/
inductive AllocOp where
  | alloc (name : String) (size : Nat) (alg : AllocAlg)
  | dealloc (name : String)
deriving DecidableEq, Repr

def runOp (st : Allocator) (op : AllocOp) : Allocator :=
  match op with
  | .alloc name size alg =>
    (allocate st { processName := name, size := size } alg).2
  | .dealloc name => (deallocate st name).2

/-- A call sequence against a fresh allocator. -/
def runOps (ops : List AllocOp) (st : Allocator) : Allocator :=
  ops.foldl runOp st

/-- An allocation op carries a positive request size. -/
def opSizeOk : AllocOp → Prop
  | .alloc _ size _ => 0 < size
  | .dealloc _ => True

instance : DecidablePred opSizeOk := fun op => by
  unfold opSizeOk
  match op with
  | .alloc _ _ _ => infer_instance
  | .dealloc _ => infer_instance

/-- Every allocation request in the op list has a positive size. -/
def positiveSizes (ops : List AllocOp) : Prop :=
  ∀ op ∈ ops, opSizeOk op

instance : DecidablePred positiveSizes := fun ops => by
  unfold positiveSizes
  infer_instance

/-- The block list tiles `[addr, total)` left to right: each block starts
where the previous ended, sizes are positive, the last ends at `total`. -/
def chainFrom (addr total : Nat) : List MemoryBlock → Prop
  | [] => addr = total
  | b :: rest => b.start = addr ∧ 0 < b.size ∧ chainFrom (addr + b.size) total rest

instance chainFromDecidable (addr total : Nat) :
    (l : List MemoryBlock) → Decidable (chainFrom addr total l)
  | [] => by unfold chainFrom; infer_instance
  | b :: rest => by
    unfold chainFrom
    have := chainFromDecidable (addr + b.size) total rest
    infer_instance

/-- No two adjacent blocks are both free. -/
def noAdjFree : List MemoryBlock → Prop
  | [] => True
  | [_] => True
  | a :: b :: rest => ¬(a.isFree = true ∧ b.isFree = true) ∧ noAdjFree (b :: rest)

instance noAdjFreeDecidable : (l : List MemoryBlock) → Decidable (noAdjFree l)
  | [] => by unfold noAdjFree; infer_instance
  | [b] => by unfold noAdjFree; infer_instance
  | a :: b :: rest => by
    unfold noAdjFree
    have := noAdjFreeDecidable (b :: rest)
    infer_instance

/-- Free blocks carry the empty process name. -/
def freeUnnamed (l : List MemoryBlock) : Prop :=
  ∀ b ∈ l, b.isFree = true → b.processName = ""

instance : DecidablePred freeUnnamed := fun l => by
  unfold freeUnnamed
  infer_instance

/-- The allocator state invariant tied to a fixed total size. -/
def AllocInv (st : Allocator) : Prop :=
  chainFrom 0 st.totalSize st.blocks ∧ noAdjFree st.blocks ∧
    freeUnnamed st.blocks

/-- The block at index `i` is free and large enough for the request. -/
def goodIdx (bs : List MemoryBlock) (req : MemoryRequest) (i : Nat) : Prop :=
  ∃ b, bs.get? i = some b ∧ b.isFree = true ∧ req.size ≤ b.size

/-- Run a list of allocation requests (name, size, strategy) and collect
the names of the successful ones, in order. -/
def runAllocsWithNames :
    List (String × Nat × AllocAlg) → Allocator → Allocator × List String
  | [], st => (st, [])
  | (n, sz, alg) :: rest, st =>
    match allocate st { processName := n, size := sz } alg with
    | (ok, st) =>
      match runAllocsWithNames rest st with
      | (st, names) => (st, if ok then n :: names else names)

/-- Deallocate every name in the list, in order. -/
def deallocAll (names : List String) (st : Allocator) : Allocator :=
  names.foldl (fun s n => (deallocate s n).2) st

end Mem

namespace Sched

/-- Mirrors the dataclass `ScheduleProcess` (scheduler.py); times are
rationals embedding the Python floats.  `__post_init__` sets
`remaining_time` to `burst_time`, which `add_process` and `reset` always
establish, so constructors below set it directly. -/
structure SProc where
  pid : Nat
  name : String
  arrival : ℚ
  burst : ℚ
  priority : Int := 1
  remaining : ℚ := 0
  startTime : ℚ := -1
  finishTime : ℚ := -1
  waiting : ℚ := 0
  turnaround : ℚ := 0
deriving DecidableEq, Repr

/-- Mirrors the dataclass `GanttBlock`. -/
structure GanttBlock where
  pid : Nat
  name : String
  startTime : ℚ
  endTime : ℚ
  colorIndex : Nat := 0
deriving DecidableEq, Repr

/-- `Scheduler.add_process` builds a process whose remaining time is its
burst time (via `__post_init__`). -/
def mkProc (pid : Nat) (name : String) (arrival burst : ℚ)
    (priority : Int := 1) : SProc :=
  { pid := pid, name := name, arrival := arrival, burst := burst
    priority := priority, remaining := burst }

/-- `Scheduler.reset`: restore every process to its un-run state (each
algorithm calls this first). -/
def resetProcs (ps : List SProc) : List SProc :=
  ps.map (fun p => { p with
    remaining := p.burst, startTime := -1, finishTime := -1
    waiting := 0, turnaround := 0 })

/-- Stable insertion used to embed Python's stable `sort`/`sorted`:
an element moves past `y` only when `y` is strictly smaller. -/
def insertStable (lt : α → α → Bool) (x : α) : List α → List α
  | [] => [x]
  | y :: ys => if lt y x then y :: insertStable lt x ys else x :: y :: ys

/-- Stable insertion sort (agrees with Python's stable sort for the
strict order `lt`). -/
def insertionSort (lt : α → α → Bool) : List α → List α
  | [] => []
  | x :: xs => insertStable lt x (insertionSort lt xs)

/-- Strict lexicographic order on the `(arrival_time, pid)` sort key. -/
def arrivalPidLt (a b : SProc) : Bool :=
  decide (a.arrival < b.arrival) ||
    (decide (a.arrival = b.arrival) && decide (a.pid < b.pid))

/-- Same key order on index-tagged processes (tag = position in the
original list, used to embed Python object identity under sorting). -/
def arrivalPidLtIdx (a b : Nat × SProc) : Bool :=
  arrivalPidLt a.2 b.2

/-- Strict order on original indices, to read a sorted-and-updated list
back in original order. -/
def idxLt (a b : Nat × SProc) : Bool := a.1 < b.1

/-- The `color_map` dict `{p.pid: i % 10}` built over a process list:
the last occurrence of a pid wins, missing pids default to 0. -/
def colorOf (ps : List SProc) (pid : Nat) : Nat :=
  ps.enum.foldl (fun acc ip => if ip.2.pid = pid then ip.1 % 10 else acc) 0

/-- The body of the `fcfs` loop over the sorted processes (with their
original indices and the running enumeration counter for colors).
Returns the Gantt blocks, the updated processes and the final clock. -/
def fcfsGo : List (Nat × SProc) → ℚ → Nat →
    List GanttBlock × List (Nat × SProc) × ℚ
  | [], t, _ => ([], [], t)
  | (idx, p) :: rest, t, i =>
    let t0 := if t < p.arrival then p.arrival else t
    let fin := t0 + p.burst
    let p' := { p with
      startTime := t0, finishTime := fin, remaining := 0
      turnaround := fin - p.arrival
      waiting := fin - p.arrival - p.burst }
    let block : GanttBlock :=
      { pid := p.pid, name := p.name, startTime := t0, endTime := fin
        colorIndex := i % 10 }
    let (bs, ps, tf) := fcfsGo rest fin (i + 1)
    (block :: bs, (idx, p') :: ps, tf)

/-- Result of one scheduling run: the returned pair plus the pieces of
scheduler state that `get_metrics` reads afterwards (`self.processes`
in original order, `self.current_time`). -/
structure SchedRun where
  gantt : List GanttBlock
  returned : List SProc
  selfProcs : List SProc
  time : ℚ
deriving DecidableEq, Repr

/-- `Scheduler.fcfs`: sort by `(arrival_time, pid)`, run each to
completion, idling until the arrival when needed.  The sorted list is
returned; the same updated processes, in original order, remain in
`self.processes` (the source mutates the shared objects in place). -/
def fcfs (procs : List SProc) : SchedRun :=
  let base := resetProcs procs
  if base.isEmpty then
    { gantt := [], returned := [], selfProcs := base, time := 0 }
  else
    let sorted := insertionSort arrivalPidLtIdx base.enum
    let (bs, ps, tf) := fcfsGo sorted 0 0
    { gantt := bs
      returned := ps.map (fun ip => ip.2)
      selfProcs := (insertionSort idxLt ps).map (fun ip => ip.2)
      time := tf }

/-- Round-half-to-even integer rounding, the idealization of Python's
`round` on our rational embedding of floats. -/
def roundHalfEven (x : ℚ) : ℤ :=
  let f := ⌊x⌋
  let r := x - f
  if r < 1 / 2 then f
  else if 1 / 2 < r then f + 1
  else if f % 2 = 0 then f else f + 1

/-- `round(x, 2)`. -/
def round2 (x : ℚ) : ℚ := (roundHalfEven (x * 100) : ℚ) / 100

/-- The metrics dict of `Scheduler.get_metrics`. -/
structure Metrics where
  avgWaitingTime : ℚ
  avgTurnaroundTime : ℚ
  totalTime : ℚ
  processCount : Nat
deriving DecidableEq, Repr

/-- `Scheduler.get_metrics` over `self.processes` and
`self.current_time`; `none` embeds the empty dict returned when there is
no process or no completed process. -/
def getMetrics (procs : List SProc) (time : ℚ) : Option Metrics :=
  if procs.isEmpty then none
  else
    let completed := procs.filter (fun p => 0 ≤ p.finishTime)
    if completed.isEmpty then none
    else
      some
        { avgWaitingTime :=
            round2 ((completed.map (fun p => p.waiting)).sum / completed.length)
          avgTurnaroundTime :=
            round2 ((completed.map (fun p => p.turnaround)).sum / completed.length)
          totalTime := time
          processCount := completed.length }

/-- The writeback loop shared by RR and both SJF variants: update the
first entry of `self.processes` with the finished process's pid, then
break. -/
def writeBack (ps : List SProc) (c : SProc) : List SProc :=
  match ps with
  | [] => []
  | p :: rest =>
    if p.pid = c.pid then
      { p with
        startTime := c.startTime, finishTime := c.finishTime
        turnaround := c.turnaround, waiting := c.waiting
        remaining := 0 } :: rest
    else p :: writeBack rest c

/-- Loop state of `round_robin`: the not-yet-admitted sorted suffix
(embedding `processes[process_index:]`), the ready queue, the clock, the
Gantt chart and `self.processes` (writeback target). -/
structure RRState where
  pending : List SProc
  queue : List SProc
  clock : ℚ
  gantt : List GanttBlock
  selfProcs : List SProc
deriving DecidableEq, Repr

/-- The admission loop `while process_index < n and
processes[process_index].arrival_time <= current_time`: move the arrived
prefix of `pending` to the tail of the queue. -/
def admitQ (clock : ℚ) : List SProc → List SProc → List SProc × List SProc
  | [], queue => (queue, [])
  | p :: rest, queue =>
    if p.arrival ≤ clock then admitQ clock rest (queue ++ [p])
    else (queue, p :: rest)

/-- The first-dispatch bookkeeping of `round_robin`: record the first
start time of a process. -/
def rrStart (c : SProc) (clock : ℚ) : SProc :=
  if c.startTime < 0 then { c with startTime := clock } else c

/-- One round-robin dispatch of the queue head `c` (the rest of the queue
being `st.queue`): run for `min(quantum, remaining)`, record the block,
admit processes that arrived during the slice, then either re-enqueue `c`
at the tail or finalize it into `self.processes`. -/
def rrDispatch (ts : ℚ) (colorSrc : List SProc) (c : SProc) (st : RRState) :
    RRState :=
  let c := rrStart c st.clock
  let exec := min ts c.remaining
  let start := st.clock
  let clock := st.clock + exec
  let c := { c with remaining := c.remaining - exec }
  let block : GanttBlock :=
    { pid := c.pid, name := c.name, startTime := start, endTime := clock
      colorIndex := colorOf colorSrc c.pid }
  let qp := admitQ clock st.pending st.queue
  if 0 < c.remaining then
    { pending := qp.2, queue := qp.1 ++ [c], clock := clock
      gantt := st.gantt ++ [block], selfProcs := st.selfProcs }
  else
    let c := { c with
      finishTime := clock, turnaround := clock - c.arrival
      waiting := clock - c.arrival - c.burst }
    { pending := qp.2, queue := qp.1, clock := clock
      gantt := st.gantt ++ [block], selfProcs := writeBack st.selfProcs c }

/-- The `while process_index < n or ready_queue` loop of `round_robin`,
fuelled (`none` = fuel ran out before the source loop finished). -/
def rrLoop (ts : ℚ) (colorSrc : List SProc) :
    Nat → RRState → Option (List GanttBlock × List SProc × ℚ)
  | 0, _ => none
  | fuel + 1, st =>
    if st.pending.isEmpty ∧ st.queue.isEmpty then
      some (st.gantt, st.selfProcs, st.clock)
    else
      let qp := admitQ st.clock st.pending st.queue
      match qp.1 with
      | [] =>
        match qp.2 with
        | p :: _ =>
          rrLoop ts colorSrc fuel
            { st with pending := qp.2, queue := [], clock := p.arrival }
        | [] => rrLoop ts colorSrc fuel { st with pending := [], queue := [] }
      | c :: rest =>
        rrLoop ts colorSrc fuel
          (rrDispatch ts colorSrc c { st with pending := qp.2, queue := rest })

/-- `Scheduler.round_robin(time_slice)`: color map from the pre-sort
copy order, processes sorted by `(arrival_time, pid)`, then the fuelled
loop from clock 0. -/
def roundRobin (procs : List SProc) (ts : ℚ) (fuel : Nat) :
    Option (List GanttBlock × List SProc × ℚ) :=
  let base := resetProcs procs
  if base.isEmpty then some ([], [], 0)
  else
    let sorted := insertionSort arrivalPidLt base
    rrLoop ts base fuel
      { pending := sorted, queue := [], clock := 0, gantt := []
        selfProcs := base }

/-- Loop state of `_sjf_preemptive` (SRTF): the working copy of the
processes (original order, mutated in place), the clock, the completed
count, the `last_process` identity (pid, name), `last_start`, the Gantt
chart and `self.processes`. -/
structure SrtfState where
  procs : List SProc
  clock : ℚ
  completedCount : Nat
  lastP : Option (Nat × String)
  lastStart : ℚ
  gantt : List GanttBlock
  selfProcs : List SProc
deriving DecidableEq, Repr

/-- Availability test of the SRTF loop: arrived and not finished. -/
def availB (clock : ℚ) (p : SProc) : Bool :=
  decide (p.arrival ≤ clock) && decide (0 < p.remaining)

/-- Strict lexicographic order on the `(remaining_time, arrival_time)`
selection key. -/
def srtfKeyLt (a b : SProc) : Bool :=
  decide (a.remaining < b.remaining) ||
    (decide (a.remaining = b.remaining) && decide (a.arrival < b.arrival))

/-- `min(available, key=...)`: index (in the working list) of the first
process attaining the minimal `(remaining_time, arrival_time)` among the
available ones; `none` when none is available. -/
def selectIdx (clock : ℚ) (procs : List SProc) : Option Nat :=
  match procs.enum.filter (fun ip => availB clock ip.2) with
  | [] => none
  | x :: xs =>
    some (xs.foldl (fun best ip => if srtfKeyLt ip.2 best.2 then ip else best) x).1

/-- `min(p.arrival_time for p in not_completed)`. -/
def minArrival (p : SProc) (ps : List SProc) : ℚ :=
  ps.foldl (fun m q => if q.arrival < m then q.arrival else m) p.arrival

/-- One executed time unit of the SRTF loop on the selected process at
index `i`: close the previous Gantt block on a switch, note the first
start, run one unit, and finalize the process when its remaining time
hits exactly zero. -/
def srtfExec (colorSrc : List SProc) (i : Nat) (st : SrtfState) : SrtfState :=
  match st.procs.get? i with
  | none => st
  | some sh =>
    let switching : Bool :=
      match st.lastP with
      | none => true
      | some lp => decide (lp.1 ≠ sh.pid)
    let gantt1 :=
      match st.lastP with
      | some lp =>
        if lp.1 ≠ sh.pid then
          st.gantt ++
            [{ pid := lp.1, name := lp.2, startTime := st.lastStart
               endTime := st.clock, colorIndex := colorOf colorSrc lp.1 }]
        else st.gantt
      | none => st.gantt
    let lastStart1 := if switching then st.clock else st.lastStart
    let sh := if switching && decide (sh.startTime < 0) then { sh with startTime := st.clock } else sh
    let clock1 := st.clock + 1
    let sh := { sh with remaining := sh.remaining - 1 }
    if sh.remaining = 0 then
      let sh := { sh with
        finishTime := clock1, turnaround := clock1 - sh.arrival
        waiting := clock1 - sh.arrival - sh.burst }
      { procs := st.procs.set i sh
        clock := clock1
        completedCount := st.completedCount + 1
        lastP := none
        lastStart := lastStart1
        gantt := gantt1 ++
          [{ pid := sh.pid, name := sh.name, startTime := lastStart1
             endTime := clock1, colorIndex := colorOf colorSrc sh.pid }]
        selfProcs := writeBack st.selfProcs sh }
    else
      { procs := st.procs.set i sh
        clock := clock1
        completedCount := st.completedCount
        lastP := some (sh.pid, sh.name)
        lastStart := lastStart1
        gantt := gantt1
        selfProcs := st.selfProcs }

/-- The `while completed_count < n` loop of `_sjf_preemptive`, fuelled
(`none` = fuel ran out before the source loop finished; an iteration
whose `available` and `not_completed` are both empty leaves the state
unchanged, as the source `continue` does). -/
def srtfLoop (colorSrc : List SProc) :
    Nat → SrtfState → Option (List GanttBlock × List SProc × ℚ)
  | 0, _ => none
  | fuel + 1, st =>
    if st.completedCount < st.procs.length then
      match selectIdx st.clock st.procs with
      | some i => srtfLoop colorSrc fuel (srtfExec colorSrc i st)
      | none =>
        match st.procs.filter (fun p => decide (0 < p.remaining)) with
        | [] => srtfLoop colorSrc fuel st
        | q :: qs =>
          srtfLoop colorSrc fuel { st with clock := minArrival q qs }
    else
      some (st.gantt, st.selfProcs, st.clock)

/-- `Scheduler.sjf(preemptive=True)`: reset, then the fuelled SRTF loop
on a working copy, from clock 0. -/
def sjfPreemptive (procs : List SProc) (fuel : Nat) :
    Option (List GanttBlock × List SProc × ℚ) :=
  let base := resetProcs procs
  if base.isEmpty then some ([], [], 0)
  else
    srtfLoop base fuel
      { procs := base, clock := 0, completedCount := 0, lastP := none
        lastStart := 0, gantt := [], selfProcs := base }

/-- Fuel sufficient for SRTF termination on positive integer bursts:
every loop iteration either executes one unit of work or is one of the
(never consecutive) idle-jump or no-op iterations. -/
def srtfFuel (procs : List SProc) : Nat :=
  2 * (procs.map (fun p => (⌊p.burst⌋).toNat)).sum + 2

/-- The preemptive SJF run terminates on this input: some fuel makes the
embedded loop finish. -/
def srtfTerminates (procs : List SProc) : Prop :=
  ∃ fuel res, sjfPreemptive procs fuel = some res

/-- Sum of the (floored, clamped to 0) remaining times of the working
copy: on whole-number remaining times, the number of executed time units
the SRTF loop still owes. -/
def remSum (st : SrtfState) : Nat :=
  (st.procs.map (fun p => (⌊p.remaining⌋).toNat)).sum

/-- Loop variant of the SRTF loop: each iteration either executes one
unit of work (dropping `remSum` by one) or — never twice in a row —
jumps the clock to the next arrival. -/
def srtfMeasure (st : SrtfState) : Nat :=
  2 * remSum st + (if (selectIdx st.clock st.procs).isSome then 0 else 1)

/-- Loop invariant of the SRTF loop on whole-number bursts: every
remaining time is a natural number, and the completed count plus the
number of still-active processes accounts for every process. -/
def SrtfInv (st : SrtfState) : Prop :=
  (∀ p ∈ st.procs, ∃ k : Nat, p.remaining = (k : ℚ)) ∧
    st.completedCount +
      st.procs.countP (fun p => decide (0 < p.remaining)) = st.procs.length

/-- The working copy `_sjf_preemptive` builds for the single process
`(P1, arrival 0, burst 0.5)`. -/
def srtfHalfBase : List SProc := resetProcs [mkProc 1 "P1" 0 (1/2)]

/-- The SRTF loop state on `srtfHalfBase` after the first iteration: the
one process has remaining time `-1/2`, so it is neither available nor
completed, and every later iteration repeats this state unchanged. -/
def srtfHalfStuck : SrtfState :=
  srtfExec srtfHalfBase 0
    { procs := srtfHalfBase, clock := 0, completedCount := 0, lastP := none
      lastStart := 0, gantt := [], selfProcs := srtfHalfBase }

end Sched

namespace Proc

/-- Mirrors `ProcessState` (process.py). -/
inductive PState where
  | CREATED
  | READY
  | RUNNING
  | BLOCKED
  | TERMINATED
deriving DecidableEq, Repr

/-- Mirrors the dataclass `Process` (process.py); the scheduling-time
fields are set at creation and never read by the lifecycle operations. -/
structure PCB where
  pid : Nat
  name : String
  state : PState
  arrival : ℚ := 0
  burst : ℚ := 5
  remaining : ℚ := 0
deriving DecidableEq, Repr

/-- State of a `ProcessManager`: the pid-keyed dict of processes is
embedded as an insertion-ordered association list (pids are unique, they
come from the increasing `_next_pid` counter). -/
structure Manager where
  processes : List PCB
  readyQueue : List Nat
  blockedQueue : List Nat
  runningProcess : Option Nat
  nextPid : Nat
deriving DecidableEq, Repr

/-- `ProcessManager.__init__`. -/
def initManager : Manager :=
  { processes := [], readyQueue := [], blockedQueue := []
    runningProcess := none, nextPid := 1 }

/-- Dict lookup `self.processes[pid]` / `.get(pid)`. -/
def findProc (ps : List PCB) (pid : Nat) : Option PCB :=
  ps.find? (fun p => p.pid == pid)

/-- In-place mutation `self.processes[pid].state = s` (pids unique). -/
def setState (ps : List PCB) (pid : Nat) (s : PState) : List PCB :=
  ps.map (fun p => if p.pid == pid then { p with state := s } else p)

/-- `ProcessManager.VALID_TRANSITIONS`. -/
def validTransition : PState → PState → Bool
  | .CREATED, .READY => true
  | .CREATED, .TERMINATED => true
  | .READY, .RUNNING => true
  | .READY, .TERMINATED => true
  | .RUNNING, .READY => true
  | .RUNNING, .BLOCKED => true
  | .RUNNING, .TERMINATED => true
  | .BLOCKED, .READY => true
  | .BLOCKED, .TERMINATED => true
  | _, _ => false

/-- `ProcessManager._can_transition`. -/
def canTransition (st : Manager) (pid : Nat) (s : PState) : Bool :=
  match findProc st.processes pid with
  | none => false
  | some p => validTransition p.state s

/-- `ProcessManager.create_process`. -/
def createProcess (st : Manager) (name : String) (arrival : ℚ := 0)
    (burst : ℚ := 5) : Manager :=
  let p : PCB :=
    { pid := st.nextPid, name := name, state := .CREATED
      arrival := arrival, burst := burst, remaining := burst }
  { st with processes := st.processes ++ [p], nextPid := st.nextPid + 1 }

/-- `ProcessManager.ready`. -/
def ready (st : Manager) (pid : Nat) : Bool × Manager :=
  if !canTransition st pid .READY then (false, st)
  else
    let blockedQueue :=
      if pid ∈ st.blockedQueue then st.blockedQueue.erase pid
      else st.blockedQueue
    let runningProcess :=
      if st.runningProcess = some pid then none else st.runningProcess
    let processes := setState st.processes pid .READY
    let readyQueue :=
      if pid ∈ st.readyQueue then st.readyQueue else st.readyQueue ++ [pid]
    (true, { st with
      processes := processes, readyQueue := readyQueue
      blockedQueue := blockedQueue, runningProcess := runningProcess })

/-- The displacement step of `ProcessManager.run`: if another process is
currently running, it is sent back to the ready state. -/
def runDisplace (st : Manager) (pid : Nat) : Manager :=
  match st.runningProcess with
  | some q => if q ≠ pid then (ready st q).2 else st
  | none => st

/-- `ProcessManager.run`: an already-running other process is displaced
to the ready state first. -/
def run (st : Manager) (pid : Nat) : Bool × Manager :=
  if !canTransition st pid .RUNNING then (false, st)
  else
    let st := runDisplace st pid
    (true, { st with
      processes := setState st.processes pid .RUNNING
      readyQueue :=
        if pid ∈ st.readyQueue then st.readyQueue.erase pid else st.readyQueue
      runningProcess := some pid })

/-- `ProcessManager.block`. -/
def block (st : Manager) (pid : Nat) : Bool × Manager :=
  if !canTransition st pid .BLOCKED then (false, st)
  else
    let runningProcess :=
      if st.runningProcess = some pid then none else st.runningProcess
    let blockedQueue :=
      if pid ∈ st.blockedQueue then st.blockedQueue else st.blockedQueue ++ [pid]
    (true, { st with
      processes := setState st.processes pid .BLOCKED
      blockedQueue := blockedQueue
      runningProcess := runningProcess })

/-- `ProcessManager.terminate`. -/
def terminate (st : Manager) (pid : Nat) : Bool × Manager :=
  match findProc st.processes pid with
  | none => (false, st)
  | some p =>
    if p.state = .TERMINATED then (false, st)
    else
      let readyQueue :=
        if pid ∈ st.readyQueue then st.readyQueue.erase pid else st.readyQueue
      let blockedQueue :=
        if pid ∈ st.blockedQueue then st.blockedQueue.erase pid
        else st.blockedQueue
      let runningProcess :=
        if st.runningProcess = some pid then none else st.runningProcess
      (true, { st with
        processes := setState st.processes pid .TERMINATED
        readyQueue := readyQueue, blockedQueue := blockedQueue
        runningProcess := runningProcess })

/-- `ProcessManager.delete_process`: terminate (best effort), then remove
from the dict. -/
def deleteProcess (st : Manager) (pid : Nat) : Bool × Manager :=
  match findProc st.processes pid with
  | none => (false, st)
  | some _ =>
    let st := (terminate st pid).2
    (true, { st with processes := st.processes.filter (fun p => p.pid ≠ pid) })

/-- One external call to the manager (the lifecycle command surface). -/
inductive POp where
  | create (name : String) (arrival burst : ℚ)
  | ready (pid : Nat)
  | run (pid : Nat)
  | block (pid : Nat)
  | terminate (pid : Nat)
  | delete (pid : Nat)
deriving DecidableEq, Repr

def runOp (st : Manager) (op : POp) : Manager :=
  match op with
  | .create name arrival burst => createProcess st name arrival burst
  | .ready pid => (ready st pid).2
  | .run pid => (run st pid).2
  | .block pid => (block st pid).2
  | .terminate pid => (terminate st pid).2
  | .delete pid => (deleteProcess st pid).2

/-- A call sequence against a fresh manager. -/
def runOps (ops : List POp) : Manager :=
  ops.foldl runOp initManager

/-- The single-runner invariant: the RUNNING state and `running_process`
always agree, and pids are unique and below the pid counter. -/
def ManagerInv (st : Manager) : Prop :=
  (st.processes.map (fun p => p.pid)).Nodup ∧
  (∀ p ∈ st.processes, p.pid < st.nextPid) ∧
  (∀ p ∈ st.processes, p.state = .RUNNING → st.runningProcess = some p.pid) ∧
  (∀ r, st.runningProcess = some r →
    ∃ p ∈ st.processes, p.pid = r ∧ p.state = .RUNNING)

end Proc

namespace Sync

/-- Abstract state of a `Semaphore` (synchronization.py): the counter and
the FIFO queue of blocked waiters.  A blocked `P` parks its caller on the
condition variable in the same order as its `waiting_queue` entry, and
`V`'s `notify()` wakes the longest-waiting parked thread (condition
variables are FIFO in CPython), which removes itself from
`waiting_queue`; the model fuses notify and resume into one atomic grant
of the queue head, which preserves the observable grant order. -/
structure Sem where
  value : Int
  waitingQueue : List String
deriving DecidableEq, Repr

/-- Outcome of a `P` call: immediately granted, or blocked. -/
inductive POutcome where
  | granted
  | blocked
deriving DecidableEq, Repr

/-- `Semaphore.P`: decrement; a negative result blocks the caller at the
queue tail. -/
def pOp (st : Sem) (actor : String) : POutcome × Sem :=
  let v := st.value - 1
  if v < 0 then
    (.blocked, { value := v, waitingQueue := st.waitingQueue ++ [actor] })
  else
    (.granted, { value := v, waitingQueue := st.waitingQueue })

/-- `Semaphore.V`: increment; a non-positive result wakes exactly one
waiter — the head of the FIFO queue — whose `P` call then completes. -/
def vOp (st : Sem) : Option String × Sem :=
  let v := st.value + 1
  if v ≤ 0 then
    match st.waitingQueue with
    | [] => (none, { value := v, waitingQueue := [] })
    | w :: rest => (some w, { value := v, waitingQueue := rest })
  else
    (none, { st with value := v })

/-- N `P` calls in order: final state, actors granted immediately, actors
blocked (in blocking order). -/
def runPs (st : Sem) : List String → Sem × List String × List String
  | [] => (st, [], [])
  | a :: rest =>
    match pOp st a with
    | (.granted, st) =>
      let (st, imm, blk) := runPs st rest
      (st, a :: imm, blk)
    | (.blocked, st) =>
      let (st, imm, blk) := runPs st rest
      (st, imm, a :: blk)

/-- k `V` calls in order: final state and the waiters granted, in grant
order. -/
def runVs (st : Sem) : Nat → Sem × List String
  | 0 => (st, [])
  | k + 1 =>
    match vOp st with
    | (none, st) =>
      let (st, g) := runVs st k
      (st, g)
    | (some w, st) =>
      let (st, g) := runVs st k
      (st, w :: g)

end Sync

/-! ## Proofs -/

/-- The C3 input list `[(P1,0,5),(P2,1,3),(P3,2,8)]`. -/
def fcfsExampleInput : List Sched.SProc :=
  [Sched.mkProc 1 "P1" 0 5, Sched.mkProc 2 "P2" 1 3, Sched.mkProc 3 "P3" 2 8]

/-- C3: on `[(P1,0,5),(P2,1,3),(P3,2,8)]`, FCFS produces exactly the
Gantt blocks `[(P1,0,5),(P2,5,8),(P3,8,16)]` in order, and
`get_metrics` then reports average waiting time 3.33. -/
theorem fcfs_example_blocks_and_avg_waiting :
    (Sched.fcfs fcfsExampleInput).gantt.map
        (fun b => (b.pid, b.name, b.startTime, b.endTime)) =
      [(1, "P1", 0, 5), (2, "P2", 5, 8), (3, "P3", 8, 16)] ∧
    (Sched.getMetrics (Sched.fcfs fcfsExampleInput).selfProcs
        (Sched.fcfs fcfsExampleInput).time).map
        (fun m => m.avgWaitingTime) = some (333 / 100) := by
  constructor
  · decide
  · decide

/-- C2: `run_sequence` on the empty reference sequence does not reject
it: it resets the replacer and returns successfully with an empty step
list (the return type has no failure channel at all). -/
theorem run_sequence_empty_returns_empty_steps (fc : Nat) (alg : PageRep.Alg) :
    PageRep.runSequence fc [] alg = some ([], PageRep.initReplacer fc) := rfl

/-- C8 counterexample: after the access sequence `[1,1]` (one fault then
one hit) the source's `get_hit_rate` returns 50, not the fraction
`hits/(hits+faults) = 1/2` the claim states. -/
theorem get_hit_rate_is_not_a_fraction :
    (PageRep.runSequence 4 [1, 1] .FIFO).map
        (fun r => PageRep.getHitRate r.2) = some 50 ∧
      ((1 : ℚ) / 2 ≠ 50) := by
  constructor
  · decide
  · decide

namespace PageRep

theorem updateAccess_pageHits (st : Replacer) (p : Int) (a : Alg) :
    (updateAccess st p a).pageHits = st.pageHits := by
  cases a <;> rfl

theorem updateAccess_pageFaults (st : Replacer) (p : Int) (a : Alg) :
    (updateAccess st p a).pageFaults = st.pageFaults := by
  cases a <;> rfl

theorem addPage_pageHits (st : Replacer) (p : Int) (a : Alg) :
    (addPage st p a).pageHits = st.pageHits := by
  cases a <;> rfl

theorem addPage_pageFaults (st : Replacer) (p : Int) (a : Alg) :
    (addPage st p a).pageFaults = st.pageFaults := by
  cases a <;> rfl

theorem clockSweep_counts :
    ∀ (fuel : Nat) (st : Replacer) (new old : Int) (st' : Replacer),
      clockSweep fuel st new = some (old, st') →
      st'.pageHits = st.pageHits ∧ st'.pageFaults = st.pageFaults := by
  intro fuel
  induction fuel with
  | zero => intro st new old st' h; simp [clockSweep] at h
  | succ n ih =>
    intro st new old st' h
    unfold clockSweep at h
    match hg : st.frames.get? st.clockPointer with
    | none => rw [hg] at h; simp at h
    | some f =>
      rw [hg] at h
      by_cases hb : bitsGet st.referenceBits f.pageId == 0
      · simp only [hb, if_pos] at h
        cases h
        exact ⟨rfl, rfl⟩
      · simp only [hb, if_neg, Bool.false_eq_true, not_false_iff] at h
        obtain ⟨e1, e2⟩ := ih _ _ _ _ h
        exact ⟨e1, e2⟩

theorem replaceStep_counts (st : Replacer) (page : Int) (alg : Alg)
    (future : List Int) (old : Int) (st' : Replacer)
    (h : (match alg with
          | .FIFO => fifoReplace st page
          | .LRU => lruReplace st page
          | .OPT => optReplace st page future
          | .CLOCK => clockReplace st page) = some (old, st')) :
    st'.pageHits = st.pageHits ∧ st'.pageFaults = st.pageFaults := by
  cases alg with
  | FIFO =>
    unfold fifoReplace at h
    match hq : st.fifoQueue with
    | [] => rw [hq] at h; simp at h
    | o :: q => rw [hq] at h; cases h; exact ⟨rfl, rfl⟩
  | LRU =>
    unfold lruReplace at h
    match hq : st.lruOrder with
    | [] => rw [hq] at h; simp at h
    | o :: q => rw [hq] at h; cases h; exact ⟨rfl, rfl⟩
  | OPT =>
    unfold optReplace at h
    match hq : (st.frames.filter (fun f => !f.isFree)).map (fun f => f.pageId) with
    | [] => rw [hq] at h; simp at h
    | p0 :: rest => rw [hq] at h; cases h; exact ⟨rfl, rfl⟩
  | CLOCK => exact clockSweep_counts _ _ _ _ _ h

/-- `access_page` adds exactly one to the hit counter on a hit and one to
the fault counter on a miss, never both. -/
theorem accessPage_counts (st : Replacer) (page : Int) (alg : Alg)
    (future : List Int) (hit : Bool) (rep : Int) (st' : Replacer)
    (h : accessPage st page alg future = some (hit, rep, st')) :
    st'.pageHits = st.pageHits + (if hit then 1 else 0) ∧
      st'.pageFaults = st.pageFaults + (if hit then 0 else 1) := by
  unfold accessPage at h
  by_cases h1 : st.frames.any (fun f => f.pageId == page)
  · simp only [h1, if_pos] at h
    cases h
    simp [updateAccess_pageHits, updateAccess_pageFaults]
  · simp only [h1, if_neg, Bool.false_eq_true, not_false_iff] at h
    by_cases h2 :
        (Replacer.frames { st with pageFaults := st.pageFaults + 1 }).any
          (fun f => f.isFree)
    · simp only [h2, if_pos] at h
      cases h
      simp [addPage_pageHits, addPage_pageFaults]
    · simp only [h2, if_neg, Bool.false_eq_true, not_false_iff] at h
      match hr : (match alg with
          | .FIFO => fifoReplace { st with pageFaults := st.pageFaults + 1 } page
          | .LRU => lruReplace { st with pageFaults := st.pageFaults + 1 } page
          | .OPT => optReplace { st with pageFaults := st.pageFaults + 1 } page future
          | .CLOCK => clockReplace { st with pageFaults := st.pageFaults + 1 } page) with
      | none => rw [hr] at h; simp at h
      | some (o, s1) =>
        rw [hr] at h
        cases h
        have := replaceStep_counts _ page alg future _ _ hr
        simp_all

/-- Over the `run_sequence` loop, the final counters are the initial ones
plus the hit/miss step counts of the tail produced. -/
theorem runSeqGo_counts (alg : Alg) :
    ∀ (seq : List Int) (st : Replacer) (acc steps : List Step) (st' : Replacer),
      runSeqGo alg seq st acc = some (steps, st') →
      ∃ tail, steps = acc ++ tail ∧ tail.length = seq.length ∧
        st'.pageHits = st.pageHits + (tail.filter (fun s => s.hit)).length ∧
        st'.pageFaults = st.pageFaults + (tail.filter (fun s => !s.hit)).length := by
  intro seq
  induction seq with
  | nil =>
    intro st acc steps st' h
    cases h
    exact ⟨[], by simp, by simp, by simp, by simp⟩
  | cons p rest ih =>
    intro st acc steps st' h
    unfold runSeqGo at h
    match ha : accessPage st p alg (if alg = .OPT then rest else []) with
    | none => rw [ha] at h; simp at h
    | some (hit, replaced, st1) =>
      rw [ha] at h
      obtain ⟨tail, hsteps, hlen, hh, hf⟩ := ih st1 _ _ _ h
      have hc := accessPage_counts st p alg _ hit replaced st1 ha
      refine ⟨{ page := p, hit := hit, replaced := replaced
                frameState := getFrameState st1
                pageFaults := st1.pageFaults, pageHits := st1.pageHits } :: tail,
        ?_, ?_, ?_, ?_⟩
      · simpa using hsteps
      · simp [hlen]
      · cases hit <;> (simp_all; try omega)
      · cases hit <;> (simp_all; try omega)

end PageRep

namespace PageRep

theorem filter_hit_split : ∀ (l : List Step),
    (l.filter (fun s => s.hit)).length +
      (l.filter (fun s => !s.hit)).length = l.length := by
  intro l
  induction l with
  | nil => simp
  | cons s rest ih =>
    by_cases hs : s.hit <;> simp [hs, List.filter] <;> omega

end PageRep

/-- C8 (amended): after any access sequence, `get_hit_rate` returns
`100 * hits / (hits + faults)` — the PERCENTAGE of accesses that were
hits, not the fraction — and 0 when no access has occurred; one access
per sequence element. -/
theorem get_hit_rate_percentage_of_hits (fc : Nat) (seq : List Int)
    (alg : PageRep.Alg) (steps : List PageRep.Step) (st : PageRep.Replacer)
    (h : PageRep.runSequence fc seq alg = some (steps, st)) :
    PageRep.getHitRate st =
      (if steps.length = 0 then 0
       else 100 * ((steps.filter (fun s => s.hit)).length : ℚ) /
         (steps.length : ℚ)) ∧
      steps.length = seq.length := by
  unfold PageRep.runSequence at h
  obtain ⟨tail, hsteps, hlen, hh, hf⟩ := PageRep.runSeqGo_counts alg seq _ [] _ _ h
  simp only [List.nil_append] at hsteps
  subst hsteps
  simp only [PageRep.initReplacer] at hh hf
  simp only [Nat.zero_add] at hh hf
  refine ⟨?_, hlen⟩
  unfold PageRep.getHitRate
  rw [hh, hf]
  have hsplit := PageRep.filter_hit_split steps
  by_cases h0 : steps.length = 0
  · have h1 : (steps.filter (fun s => s.hit)).length = 0 := by omega
    have h2 : (steps.filter (fun s => !s.hit)).length = 0 := by omega
    simp [h0, h1, h2]
  · have htot : (steps.filter (fun s => !s.hit)).length +
        (steps.filter (fun s => s.hit)).length = steps.length := by omega
    rw [htot]
    simp only [h0, if_neg, Ne, not_false_iff]
    have hq : ((steps.length : ℚ)) ≠ 0 := by

      exact_mod_cast h0
    field_simp
    ring

/-- Witness for the amended C8 theorem at the concrete run
`run_sequence([1])` with one frame (one access, one fault, no hit). -/
theorem get_hit_rate_percentage_of_hits_witness :
    PageRep.runSequence 1 [1] .FIFO =
      some ([{ page := 1, hit := false, replaced := -1, frameState := [1]
               pageFaults := 1, pageHits := 0 }],
        { frameCount := 1
          frames := [{ frameId := 0, pageId := 1, isFree := false }]
          pageFaults := 1, pageHits := 0
          accessHistory := [(1, false, -1)]
          fifoQueue := [1], lruOrder := [], clockPointer := 0
          referenceBits := [] }) ∧
    (PageRep.getHitRate
        { frameCount := 1
          frames := [{ frameId := 0, pageId := 1, isFree := false }]
          pageFaults := 1, pageHits := 0
          accessHistory := [(1, false, -1)]
          fifoQueue := [1], lruOrder := [], clockPointer := 0
          referenceBits := [] } =
      (if ([{ page := 1, hit := false, replaced := -1, frameState := [1]
              pageFaults := 1, pageHits := 0 }] : List PageRep.Step).length = 0
       then 0
       else 100 *
         (([{ page := 1, hit := false, replaced := -1, frameState := [1]
              pageFaults := 1, pageHits := 0 }] : List PageRep.Step).filter
            (fun s => s.hit)).length /
         (([{ page := 1, hit := false, replaced := -1, frameState := [1]
              pageFaults := 1, pageHits := 0 }] : List PageRep.Step).length : ℚ)) ∧
      ([{ page := 1, hit := false, replaced := -1, frameState := [1]
          pageFaults := 1, pageHits := 0 }] : List PageRep.Step).length =
        ([1] : List Int).length) :=
  ⟨by decide, get_hit_rate_percentage_of_hits 1 [1] .FIFO _ _ (by decide)⟩

namespace Mem

theorem noAdjFree_tail : ∀ (x : MemoryBlock) (l : List MemoryBlock),
    noAdjFree (x :: l) → noAdjFree l := by
  intro x l h
  match l with
  | [] => trivial
  | y :: rest => exact h.2

theorem noAdjFree_cons : ∀ (x y : MemoryBlock) (rest : List MemoryBlock),
    noAdjFree (x :: y :: rest) → ¬(x.isFree = true ∧ y.isFree = true) := by
  intro x y rest h
  exact h.1

theorem noAdjFree_cons_of : ∀ (x : MemoryBlock) (l : List MemoryBlock),
    noAdjFree l →
    (∀ y rest, l = y :: rest → ¬(x.isFree = true ∧ y.isFree = true)) →
    noAdjFree (x :: l) := by
  intro x l hl hx
  match l with
  | [] => trivial
  | y :: rest => exact ⟨hx y rest rfl, hl⟩

theorem splitBlock_cons_zero (y : MemoryBlock) (l : List MemoryBlock)
    (req : MemoryRequest) :
    splitBlock (y :: l) 0 req =
      (if 0 < y.size - req.size then
        ({ start := y.start, size := req.size, isFree := false
           processName := req.processName } : MemoryBlock) ::
          ({ start := y.start + req.size, size := y.size - req.size
             isFree := true } : MemoryBlock) :: l
      else
        ({ start := y.start, size := req.size, isFree := false
           processName := req.processName } : MemoryBlock) :: l) := rfl

theorem splitBlock_cons_succ (y : MemoryBlock) (l : List MemoryBlock)
    (i : Nat) (req : MemoryRequest) :
    splitBlock (y :: l) (i + 1) req = y :: splitBlock l i req := rfl

theorem splitBlock_head : ∀ (y : MemoryBlock) (l : List MemoryBlock) (i : Nat)
    (req : MemoryRequest),
    ∃ h t, splitBlock (y :: l) i req = h :: t ∧
      (h.isFree = true → y.isFree = true) := by
  intro y l i req
  match i with
  | 0 =>
    rw [splitBlock_cons_zero]
    by_cases hr : 0 < y.size - req.size
    · rw [if_pos hr]
      exact ⟨_, _, rfl, by intro h; exact absurd h (by simp)⟩
    · rw [if_neg hr]
      exact ⟨_, _, rfl, by intro h; exact absurd h (by simp)⟩
  | i + 1 => exact ⟨y, splitBlock l i req, rfl, fun h => h⟩

theorem splitBlock_chainFrom (total : Nat) (req : MemoryRequest) :
    ∀ (bs : List MemoryBlock) (addr i : Nat) (b : MemoryBlock),
      chainFrom addr total bs → bs.get? i = some b →
      req.size ≤ b.size → 0 < req.size →
      chainFrom addr total (splitBlock bs i req) := by
  intro bs
  induction bs with
  | nil => intro addr i b _ hb; simp at hb
  | cons x rest ih =>
    intro addr i b hc hb hsz hpos
    obtain ⟨hstart, hxsz, hrest⟩ := hc
    match i with
    | 0 =>
      have hxb : x = b := by simpa using hb
      subst hxb
      rw [splitBlock_cons_zero]
      by_cases hr : 0 < x.size - req.size
      · rw [if_pos hr]
        refine ⟨hstart, hpos, ?_, hr, ?_⟩
        · show x.start + req.size = addr + req.size
          omega
        · show chainFrom (addr + req.size + (x.size - req.size)) total rest
          have he : addr + req.size + (x.size - req.size) = addr + x.size := by
            omega
          rw [he]
          exact hrest
      · rw [if_neg hr]
        refine ⟨hstart, hpos, ?_⟩
        show chainFrom (addr + req.size) total rest
        have he : addr + req.size = addr + x.size := by omega
        rw [he]
        exact hrest
    | i + 1 =>
      simp only [List.get?_cons_succ] at hb
      rw [splitBlock_cons_succ]
      exact ⟨hstart, hxsz, ih (addr + x.size) i b hrest hb hsz hpos⟩

theorem splitBlock_noAdjFree (req : MemoryRequest) :
    ∀ (bs : List MemoryBlock) (i : Nat) (b : MemoryBlock),
      noAdjFree bs → bs.get? i = some b → b.isFree = true →
      noAdjFree (splitBlock bs i req) := by
  intro bs
  induction bs with
  | nil => intro i b _ hb; simp at hb
  | cons x rest ih =>
    intro i b hn hb hbf
    match i with
    | 0 =>
      have hxb : x = b := by simpa using hb
      subst hxb
      have hrest : noAdjFree rest := noAdjFree_tail _ _ hn
      have hnext : ∀ y t, rest = y :: t → y.isFree = false := by
        intro y t he
        subst he
        cases hy : y.isFree
        · rfl
        · exact absurd ⟨hbf, hy⟩ (noAdjFree_cons _ _ _ hn)
      rw [splitBlock_cons_zero]
      by_cases hr : 0 < x.size - req.size
      · rw [if_pos hr]
        refine noAdjFree_cons_of _ _ ?_ ?_
        · refine noAdjFree_cons_of _ _ hrest ?_
          intro y t he hcontra
          rw [hnext y t he] at hcontra
          exact absurd hcontra.2 (by simp)
        · intro y t he hcontra
          exact absurd hcontra.1 (by simp)
      · rw [if_neg hr]
        refine noAdjFree_cons_of _ _ hrest ?_
        intro y t he hcontra
        exact absurd hcontra.1 (by simp)
    | i + 1 =>
      simp only [List.get?_cons_succ] at hb
      rw [splitBlock_cons_succ]
      refine noAdjFree_cons_of _ _ (ih i b (noAdjFree_tail _ _ hn) hb hbf) ?_
      intro y t he hcontra
      match rest, hb with
      | z :: rest2, hb =>
        obtain ⟨h, t2, heq, himp⟩ := splitBlock_head z rest2 i req
        rw [heq] at he
        cases he
        exact noAdjFree_cons _ _ _ hn ⟨hcontra.1, himp hcontra.2⟩

theorem splitBlock_mem (req : MemoryRequest) :
    ∀ (bs : List MemoryBlock) (i : Nat) (b : MemoryBlock),
      b ∈ splitBlock bs i req →
      b ∈ bs ∨ (b.isFree = false ∧ b.processName = req.processName) ∨
        (b.isFree = true ∧ b.processName = "") := by
  intro bs
  induction bs with
  | nil => intro i b hb; simp [splitBlock] at hb
  | cons x rest ih =>
    intro i b hb
    match i with
    | 0 =>
      rw [splitBlock_cons_zero] at hb
      by_cases hr : 0 < x.size - req.size
      · rw [if_pos hr] at hb
        rcases List.mem_cons.mp hb with hb | hb
        · subst hb; exact Or.inr (Or.inl ⟨rfl, rfl⟩)
        · rcases List.mem_cons.mp hb with hb | hb
          · subst hb; exact Or.inr (Or.inr ⟨rfl, rfl⟩)
          · exact Or.inl (List.mem_cons_of_mem _ hb)
      · rw [if_neg hr] at hb
        rcases List.mem_cons.mp hb with hb | hb
        · subst hb; exact Or.inr (Or.inl ⟨rfl, rfl⟩)
        · exact Or.inl (List.mem_cons_of_mem _ hb)
    | i + 1 =>
      rw [splitBlock_cons_succ] at hb
      rcases List.mem_cons.mp hb with hb | hb
      · subst hb; exact Or.inl (List.mem_cons_self _ _)
      · rcases ih i b hb with h | h | h
        · exact Or.inl (List.mem_cons_of_mem _ h)
        · exact Or.inr (Or.inl h)
        · exact Or.inr (Or.inr h)

end Mem

namespace Mem

theorem firstFitGo_sound (req : MemoryRequest) :
    ∀ (l : List MemoryBlock) (i j : Nat), firstFitGo req l i = some j →
      ∃ k b, l.get? k = some b ∧ j = i + k ∧ b.isFree = true ∧
        req.size ≤ b.size := by
  intro l
  induction l with
  | nil => intro i j h; simp [firstFitGo] at h
  | cons x rest ih =>
    intro i j h
    unfold firstFitGo at h
    by_cases hc : x.isFree && decide (req.size ≤ x.size)
    · rw [if_pos hc] at h
      cases h
      simp only [Bool.and_eq_true, decide_eq_true_eq] at hc
      exact ⟨0, x, rfl, by omega, hc.1, hc.2⟩
    · rw [if_neg hc] at h
      obtain ⟨k, b, hg, hj, hf, hs⟩ := ih (i + 1) j h
      exact ⟨k + 1, b, by simpa using hg, by omega, hf, hs⟩

theorem bestFitGo_sound (req : MemoryRequest) :
    ∀ (l : List MemoryBlock) (i : Nat) (acc : Option (Nat × Nat)) (j : Nat),
      bestFitGo req l i acc = some j →
      (∃ s, acc = some (j, s)) ∨
        ∃ k b, l.get? k = some b ∧ j = i + k ∧ b.isFree = true ∧
          req.size ≤ b.size := by
  intro l
  induction l with
  | nil =>
    intro i acc j h
    unfold bestFitGo at h
    match acc, h with
    | none, h => exact Option.noConfusion h
    | some (j0, s), h =>
      simp only [Option.map_some', Option.some.injEq] at h
      exact Or.inl ⟨s, by rw [h]⟩
  | cons x rest ih =>
    intro i acc j h
    unfold bestFitGo at h
    split at h
    case isTrue hc =>
      simp only [Bool.and_eq_true, decide_eq_true_eq] at hc
      rcases ih (i + 1) (some (i, x.size)) j h with ⟨s, hs⟩ | ⟨k, b, hg, hj, hf, hsz⟩
      · rcases hs with ⟨he1, _⟩
        exact Or.inr ⟨0, x, rfl, by omega, hc.1.1, hc.1.2⟩
      · exact Or.inr ⟨k + 1, b, by simpa using hg, by omega, hf, hsz⟩
    case isFalse hc =>
      rcases ih (i + 1) acc j h with hl | ⟨k, b, hg, hj, hf, hsz⟩
      · exact Or.inl hl
      · exact Or.inr ⟨k + 1, b, by simpa using hg, by omega, hf, hsz⟩

theorem worstFitGo_sound (req : MemoryRequest) :
    ∀ (l : List MemoryBlock) (i : Nat) (acc : Option (Nat × Nat)) (j : Nat),
      worstFitGo req l i acc = some j →
      (∃ s, acc = some (j, s)) ∨
        ∃ k b, l.get? k = some b ∧ j = i + k ∧ b.isFree = true ∧
          req.size ≤ b.size := by
  intro l
  induction l with
  | nil =>
    intro i acc j h
    unfold worstFitGo at h
    match acc, h with
    | none, h => exact Option.noConfusion h
    | some (j0, s), h =>
      simp only [Option.map_some', Option.some.injEq] at h
      exact Or.inl ⟨s, by rw [h]⟩
  | cons x rest ih =>
    intro i acc j h
    unfold worstFitGo at h
    split at h
    case isTrue hc =>
      simp only [Bool.and_eq_true, decide_eq_true_eq] at hc
      rcases ih (i + 1) (some (i, x.size)) j h with ⟨s, hs⟩ | ⟨k, b, hg, hj, hf, hsz⟩
      · rcases hs with ⟨he1, _⟩
        exact Or.inr ⟨0, x, rfl, by omega, hc.1.1, hc.1.2⟩
      · exact Or.inr ⟨k + 1, b, by simpa using hg, by omega, hf, hsz⟩
    case isFalse hc =>
      rcases ih (i + 1) acc j h with hl | ⟨k, b, hg, hj, hf, hsz⟩
      · exact Or.inl hl
      · exact Or.inr ⟨k + 1, b, by simpa using hg, by omega, hf, hsz⟩

theorem nextFitGo_sound (blocks : List MemoryBlock) (req : MemoryRequest)
    (ptr : Nat) :
    ∀ (k off j : Nat), nextFitGo blocks req ptr k off = some j →
      goodIdx blocks req j := by
  intro k
  induction k with
  | zero => intro off j h; simp [nextFitGo] at h
  | succ n ih =>
    intro off j h
    unfold nextFitGo at h
    match hg : blocks.get? ((ptr + off) % blocks.length), h with
    | none, h => exact Option.noConfusion h
    | some b, h =>
      have h2 : (if (b.isFree && decide (req.size ≤ b.size)) = true
          then some ((ptr + off) % blocks.length)
          else nextFitGo blocks req ptr n (off + 1)) = some j := h
      split at h2
      case isTrue hc =>
        cases h2
        simp only [Bool.and_eq_true, decide_eq_true_eq] at hc
        exact ⟨b, hg, hc.1, hc.2⟩
      case isFalse hc =>
        exact ih (off + 1) j h2

/-- The chosen index of any of the four strategies points at a free block
large enough for the request. -/
theorem allocate_structure (st : Allocator) (req : MemoryRequest)
    (alg : AllocAlg) :
    ((allocate st req alg).1 = false ∧
      (allocate st req alg).2.blocks = st.blocks) ∨
    (∃ i, goodIdx st.blocks req i ∧ (allocate st req alg).1 = true ∧
      (allocate st req alg).2.blocks = splitBlock st.blocks i req) := by
  unfold allocate
  match halg : (match alg with
    | .FIRST_FIT => firstFitIdx st.blocks req
    | .BEST_FIT => bestFitIdx st.blocks req
    | .WORST_FIT => worstFitIdx st.blocks req
    | .NEXT_FIT => nextFitIdx st.blocks req st.nextFitPointer) with
  | none => exact Or.inl ⟨rfl, rfl⟩
  | some i =>
    refine Or.inr ⟨i, ?_, rfl, rfl⟩
    cases alg with
    | FIRST_FIT =>
      simp only [] at halg
      obtain ⟨k, b, hg, hj, hf, hs⟩ := firstFitGo_sound req st.blocks 0 i halg
      exact ⟨b, by rw [hj]; simpa using hg, hf, hs⟩
    | BEST_FIT =>
      simp only [] at halg
      rcases bestFitGo_sound req st.blocks 0 none i halg with ⟨s, hs⟩ | ⟨k, b, hg, hj, hf, hs⟩
      · cases hs
      · exact ⟨b, by rw [hj]; simpa using hg, hf, hs⟩
    | WORST_FIT =>
      simp only [] at halg
      rcases worstFitGo_sound req st.blocks 0 none i halg with ⟨s, hs⟩ | ⟨k, b, hg, hj, hf, hs⟩
      · cases hs
      · exact ⟨b, by rw [hj]; simpa using hg, hf, hs⟩
    | NEXT_FIT =>
      simp only [] at halg
      exact nextFitGo_sound st.blocks req st.nextFitPointer _ 0 i halg

end Mem

namespace Mem

theorem mergeFreeBlocks_chainFrom (total : Nat) :
    ∀ (l : List MemoryBlock) (addr : Nat),
      chainFrom addr total l → chainFrom addr total (mergeFreeBlocks l) := by
  intro l
  induction l using mergeFreeBlocks.induct with
  | case1 => intro addr h; rw [mergeFreeBlocks]; exact h
  | case2 b => intro addr h; rw [mergeFreeBlocks]; exact h
  | case3 a b rest hcond ih =>
    intro addr h
    have h2 : a.start = addr ∧ 0 < a.size ∧
        chainFrom (addr + a.size) total (b :: rest) := h
    obtain ⟨ha, has, h3⟩ := h2
    have h4 : b.start = addr + a.size ∧ 0 < b.size ∧
        chainFrom (addr + a.size + b.size) total rest := h3
    obtain ⟨hb, hbs, hrest⟩ := h4
    rw [mergeFreeBlocks]
    simp only [hcond, if_pos]
    refine ih addr ⟨?_, ?_, ?_⟩
    · show a.start = addr
      exact ha
    · show 0 < a.size + b.size
      omega
    · show chainFrom (addr + (a.size + b.size)) total rest
      have he : addr + (a.size + b.size) = addr + a.size + b.size := by omega
      rw [he]
      exact hrest
  | case4 a b rest hcond ih =>
    intro addr h
    have h2 : a.start = addr ∧ 0 < a.size ∧
        chainFrom (addr + a.size) total (b :: rest) := h
    rw [mergeFreeBlocks]
    simp only [hcond, if_neg, Bool.false_eq_true, not_false_iff]
    exact ⟨h2.1, h2.2.1, ih (addr + a.size) h2.2.2⟩

theorem mergeFreeBlocks_head :
    ∀ (n : Nat) (b : MemoryBlock) (rest : List MemoryBlock),
      rest.length ≤ n →
      ∃ s t, mergeFreeBlocks (b :: rest) = { b with size := s } :: t := by
  intro n
  induction n with
  | zero =>
    intro b rest hlen
    match rest, hlen with
    | [], _ => exact ⟨b.size, [], by rw [mergeFreeBlocks]⟩
  | succ n ih =>
    intro b rest hlen
    match rest with
    | [] => exact ⟨b.size, [], by rw [mergeFreeBlocks]⟩
    | c :: rest2 =>
      rw [mergeFreeBlocks]
      by_cases hc : b.isFree && c.isFree
      · simp only [hc, if_pos]
        obtain ⟨s, t, he⟩ := ih { b with size := b.size + c.size } rest2
          (by simp at hlen; omega)
        exact ⟨s, t, he⟩
      · simp only [hc, if_neg, Bool.false_eq_true, not_false_iff]
        exact ⟨b.size, mergeFreeBlocks (c :: rest2), rfl⟩

theorem mergeFreeBlocks_noAdjFree :
    ∀ (l : List MemoryBlock), noAdjFree (mergeFreeBlocks l) := by
  intro l
  induction l using mergeFreeBlocks.induct with
  | case1 => rw [mergeFreeBlocks]; trivial
  | case2 b => rw [mergeFreeBlocks]; trivial
  | case3 a b rest hcond ih =>
    rw [mergeFreeBlocks]
    simp only [hcond, if_pos]
    exact ih
  | case4 a b rest hcond ih =>
    rw [mergeFreeBlocks]
    simp only [hcond, if_neg, Bool.false_eq_true, not_false_iff]
    refine noAdjFree_cons_of _ _ ih ?_
    intro y t he hcontra
    obtain ⟨s, t2, heq⟩ := mergeFreeBlocks_head rest.length b rest (le_refl _)
    rw [heq] at he
    cases he
    have : (a.isFree && b.isFree) = true := by
      have hy : b.isFree = true := hcontra.2
      rw [hcontra.1, hy]
      rfl
    exact hcond this

theorem mergeFreeBlocks_freeUnnamed :
    ∀ (l : List MemoryBlock), freeUnnamed l → freeUnnamed (mergeFreeBlocks l) := by
  intro l
  induction l using mergeFreeBlocks.induct with
  | case1 => intro h; rw [mergeFreeBlocks]; exact h
  | case2 b => intro h; rw [mergeFreeBlocks]; exact h
  | case3 a b rest hcond ih =>
    intro h
    rw [mergeFreeBlocks]
    simp only [hcond, if_pos]
    refine ih ?_
    intro x hx hxf
    rcases List.mem_cons.mp hx with hx | hx
    · subst hx
      exact h a (List.mem_cons_self _ _) hxf
    · exact h x (List.mem_cons_of_mem _ (List.mem_cons_of_mem _ hx)) hxf
  | case4 a b rest hcond ih =>
    intro h
    rw [mergeFreeBlocks]
    simp only [hcond, if_neg, Bool.false_eq_true, not_false_iff]
    intro x hx hxf
    rcases List.mem_cons.mp hx with hx | hx
    · subst hx
      exact h x (List.mem_cons_self _ _) hxf
    · exact ih (fun y hy hyf =>
        h y (List.mem_cons_of_mem _ hy) hyf) x hx hxf

theorem mergeFreeBlocks_nonfree_mem :
    ∀ (l : List MemoryBlock) (b : MemoryBlock),
      b ∈ mergeFreeBlocks l → b.isFree = false → b ∈ l := by
  intro l
  induction l using mergeFreeBlocks.induct with
  | case1 => intro b hb _; rw [mergeFreeBlocks] at hb; exact hb
  | case2 x => intro b hb _; rw [mergeFreeBlocks] at hb; exact hb
  | case3 a c rest hcond ih =>
    intro b hb hbf
    rw [mergeFreeBlocks] at hb
    simp only [hcond, if_pos] at hb
    rcases List.mem_cons.mp (ih b hb hbf) with hb2 | hb2
    · subst hb2
      simp only [Bool.and_eq_true] at hcond
      rw [hcond.1] at hbf
      cases hbf
    · exact List.mem_cons_of_mem _ (List.mem_cons_of_mem _ hb2)
  | case4 a c rest hcond ih =>
    intro b hb hbf
    rw [mergeFreeBlocks] at hb
    simp only [hcond, if_neg, Bool.false_eq_true, not_false_iff] at hb
    rcases List.mem_cons.mp hb with hb | hb
    · subst hb; exact List.mem_cons_self _ _
    · exact List.mem_cons_of_mem _ (ih b hb hbf)

end Mem

namespace Mem

theorem chainFrom_map_free (total : Nat) (name : String) :
    ∀ (l : List MemoryBlock) (addr : Nat),
      chainFrom addr total l →
      chainFrom addr total (l.map (fun b =>
        if b.processName == name then { b with isFree := true, processName := "" }
        else b)) := by
  intro l
  induction l with
  | nil => intro addr h; exact h
  | cons x rest ih =>
    intro addr h
    have h2 : x.start = addr ∧ 0 < x.size ∧
        chainFrom (addr + x.size) total rest := h
    simp only [List.map_cons]
    by_cases hx : x.processName == name
    · rw [if_pos hx]
      exact ⟨h2.1, h2.2.1, ih (addr + x.size) h2.2.2⟩
    · rw [if_neg hx]
      exact ⟨h2.1, h2.2.1, ih (addr + x.size) h2.2.2⟩

theorem freeUnnamed_map_free (name : String) :
    ∀ (l : List MemoryBlock), freeUnnamed l →
      freeUnnamed (l.map (fun b =>
        if b.processName == name then { b with isFree := true, processName := "" }
        else b)) := by
  intro l hl b hb hbf
  obtain ⟨x, hx, hxe⟩ := List.mem_map.mp hb
  by_cases hxn : x.processName == name
  · rw [if_pos hxn] at hxe
    subst hxe
    rfl
  · rw [if_neg hxn] at hxe
    subst hxe
    exact hl x hx hbf

theorem deallocate_totalSize (st : Allocator) (name : String) :
    (deallocate st name).2.totalSize = st.totalSize := by
  unfold deallocate
  by_cases h : st.blocks.any (fun b => b.processName == name)
  · rw [if_pos h]
  · rw [if_neg h]

theorem deallocate_blocks_found (st : Allocator) (name : String)
    (h : st.blocks.any (fun b => b.processName == name) = true) :
    (deallocate st name).2.blocks =
      mergeFreeBlocks (st.blocks.map (fun b =>
        if b.processName == name then { b with isFree := true, processName := "" }
        else b)) := by
  unfold deallocate
  rw [if_pos h]

theorem deallocate_blocks_not_found (st : Allocator) (name : String)
    (h : ¬(st.blocks.any (fun b => b.processName == name) = true)) :
    (deallocate st name).2 = st := by
  unfold deallocate
  rw [if_neg h]

theorem deallocate_inv (st : Allocator) (name : String) (hi : AllocInv st) :
    AllocInv (deallocate st name).2 := by
  obtain ⟨hc, hn, hf⟩ := hi
  by_cases h : st.blocks.any (fun b => b.processName == name) = true
  · constructor
    · rw [deallocate_totalSize, deallocate_blocks_found st name h]
      exact mergeFreeBlocks_chainFrom _ _ _ (chainFrom_map_free _ name _ _ hc)
    · constructor
      · rw [deallocate_blocks_found st name h]
        exact mergeFreeBlocks_noAdjFree _
      · rw [deallocate_blocks_found st name h]
        exact mergeFreeBlocks_freeUnnamed _ (freeUnnamed_map_free name _ hf)
  · rw [deallocate_blocks_not_found st name h]
    exact ⟨hc, hn, hf⟩

theorem allocate_totalSize (st : Allocator) (req : MemoryRequest)
    (alg : AllocAlg) : (allocate st req alg).2.totalSize = st.totalSize := by
  unfold allocate
  match (match alg with
    | .FIRST_FIT => firstFitIdx st.blocks req
    | .BEST_FIT => bestFitIdx st.blocks req
    | .WORST_FIT => worstFitIdx st.blocks req
    | .NEXT_FIT => nextFitIdx st.blocks req st.nextFitPointer) with
  | none => rfl
  | some i => rfl

theorem allocate_inv (st : Allocator) (req : MemoryRequest) (alg : AllocAlg)
    (hi : AllocInv st) (hpos : 0 < req.size) :
    AllocInv (allocate st req alg).2 := by
  obtain ⟨hc, hn, hf⟩ := hi
  rcases allocate_structure st req alg with ⟨_, hb⟩ | ⟨i, ⟨b, hg, hbf, hbs⟩, _, hb⟩
  · rw [AllocInv, allocate_totalSize, hb]
    exact ⟨hc, hn, hf⟩
  · rw [AllocInv, allocate_totalSize, hb]
    refine ⟨splitBlock_chainFrom _ req _ _ i b hc hg hbs hpos,
      splitBlock_noAdjFree req _ i b hn hg hbf, ?_⟩
    intro x hx hxf
    rcases splitBlock_mem req _ i x hx with h | h | h
    · exact hf x h hxf
    · rw [h.1] at hxf; cases hxf
    · exact h.2

theorem runOp_inv (st : Allocator) (op : AllocOp) (hi : AllocInv st)
    (hop : opSizeOk op) : AllocInv (runOp st op) := by
  match op with
  | .alloc name size alg => exact allocate_inv st _ alg hi hop
  | .dealloc name => exact deallocate_inv st name hi

theorem runOps_inv (ops : List AllocOp) (st : Allocator) (hi : AllocInv st)
    (hops : positiveSizes ops) : AllocInv (runOps ops st) := by
  induction ops generalizing st with
  | nil => exact hi
  | cons op rest ih =>
    exact ih (runOp st op) (runOp_inv st op hi (hops op (List.mem_cons_self _ _)))
      (fun o ho => hops o (List.mem_cons_of_mem _ ho))

theorem initAllocator_inv (total : Nat) (h : 0 < total) :
    AllocInv (initAllocator total) := by
  refine ⟨⟨rfl, h, ?_⟩, trivial, ?_⟩
  · show 0 + total = total
    omega
  intro b hb _
  rcases List.mem_cons.mp hb with hb | hb
  · rw [hb]
  · cases hb

theorem chainFrom_lb (total : Nat) :
    ∀ (l : List MemoryBlock) (addr : Nat), chainFrom addr total l →
      ∀ b ∈ l, addr ≤ b.start := by
  intro l
  induction l with
  | nil => intro addr _ b hb; cases hb
  | cons x rest ih =>
    intro addr h b hb
    have h2 : x.start = addr ∧ 0 < x.size ∧
        chainFrom (addr + x.size) total rest := h
    rcases List.mem_cons.mp hb with hb | hb
    · subst hb
      omega
    · have := ih (addr + x.size) h2.2.2 b hb
      omega

theorem chainFrom_pairwise (total : Nat) :
    ∀ (l : List MemoryBlock) (addr : Nat), chainFrom addr total l →
      l.Pairwise (fun a b => a.start < b.start) := by
  intro l
  induction l with
  | nil => intro addr _; exact List.Pairwise.nil
  | cons x rest ih =>
    intro addr h
    have h2 : x.start = addr ∧ 0 < x.size ∧
        chainFrom (addr + x.size) total rest := h
    refine List.Pairwise.cons ?_ (ih (addr + x.size) h2.2.2)
    intro b hb
    have := chainFrom_lb total rest (addr + x.size) h2.2.2 b hb
    omega

end Mem

namespace Mem

theorem allocate_freeUnnamed (st : Allocator) (req : MemoryRequest)
    (alg : AllocAlg) (hf : freeUnnamed st.blocks) :
    freeUnnamed (allocate st req alg).2.blocks := by
  rcases allocate_structure st req alg with ⟨_, hb⟩ | ⟨i, _, _, hb⟩
  · rw [hb]; exact hf
  · rw [hb]
    intro x hx hxf
    rcases splitBlock_mem req _ i x hx with h | h | h
    · exact hf x h hxf
    · rw [h.1] at hxf; cases hxf
    · exact h.2

theorem deallocate_freeUnnamed (st : Allocator) (name : String)
    (hf : freeUnnamed st.blocks) :
    freeUnnamed (deallocate st name).2.blocks := by
  by_cases h : st.blocks.any (fun b => b.processName == name) = true
  · rw [deallocate_blocks_found st name h]
    exact mergeFreeBlocks_freeUnnamed _ (freeUnnamed_map_free name _ hf)
  · rw [deallocate_blocks_not_found st name h]
    exact hf

theorem runOps_freeUnnamed (ops : List AllocOp) :
    ∀ (st : Allocator), freeUnnamed st.blocks →
      freeUnnamed (runOps ops st).blocks := by
  induction ops with
  | nil => intro st h; exact h
  | cons op rest ih =>
    intro st h
    refine ih (runOp st op) ?_
    match op with
    | .alloc name size alg => exact allocate_freeUnnamed st _ alg h
    | .dealloc name => exact deallocate_freeUnnamed st name h

theorem deallocate_fst (st : Allocator) (name : String) :
    (deallocate st name).1 = st.blocks.any (fun b => b.processName == name) := by
  unfold deallocate
  by_cases h : st.blocks.any (fun b => b.processName == name) = true
  · rw [if_pos h, h]
  · rw [if_neg h]
    exact (Bool.not_eq_true _ |>.mp h).symm

theorem initAllocator_freeUnnamed (total : Nat) :
    freeUnnamed (initAllocator total).blocks := by
  intro b hb _
  rcases List.mem_cons.mp hb with hb | hb
  · rw [hb]
  · cases hb

end Mem

/-- C10: on any reachable allocator state, `deallocate("")` succeeds (and
logs a release) as soon as some free block exists, because free blocks
carry the empty string as their owner; it returns False only when every
block is allocated to a non-empty name. -/
theorem deallocate_empty_name (total : Nat) (ops : List Mem.AllocOp) :
    ((∃ b ∈ (Mem.runOps ops (Mem.initAllocator total)).blocks,
        b.isFree = true) →
      (Mem.deallocate (Mem.runOps ops (Mem.initAllocator total)) "").1 = true ∧
      (Mem.deallocate (Mem.runOps ops (Mem.initAllocator total)) "").2.allocationHistory =
        (Mem.runOps ops (Mem.initAllocator total)).allocationHistory ++
          [("释放", "", true)]) ∧
    ((Mem.deallocate (Mem.runOps ops (Mem.initAllocator total)) "").1 = false →
      ∀ b ∈ (Mem.runOps ops (Mem.initAllocator total)).blocks,
        b.isFree = false ∧ b.processName ≠ "") := by
  have hfu : Mem.freeUnnamed (Mem.runOps ops (Mem.initAllocator total)).blocks :=
    Mem.runOps_freeUnnamed ops _ (Mem.initAllocator_freeUnnamed total)
  constructor
  · rintro ⟨b, hb, hbf⟩
    have hname : b.processName = "" := hfu b hb hbf
    have hany : (Mem.runOps ops (Mem.initAllocator total)).blocks.any
        (fun b => b.processName == "") = true := by
      rw [List.any_eq_true]
      exact ⟨b, hb, by rw [hname]; rfl⟩
    constructor
    · rw [Mem.deallocate_fst]; exact hany
    · unfold Mem.deallocate
      rw [if_pos hany]
  · intro h b hb
    rw [Mem.deallocate_fst] at h
    have hall := List.any_eq_false.mp ((Bool.not_eq_true _).mp (by rw [h]; simp))
    have hne : b.processName ≠ "" := by
      intro hcon
      exact absurd (by rw [hcon]; rfl) (hall b hb)
    refine ⟨?_, hne⟩
    cases hbf : b.isFree
    · rfl
    · exact absurd (hfu b hb hbf) hne

/-- Witness for C10 on the fresh 1024-byte allocator, whose single block
is free. -/
theorem deallocate_empty_name_witness :
    (Mem.deallocate (Mem.runOps [] (Mem.initAllocator 1024)) "").1 = true ∧
    (Mem.deallocate (Mem.runOps [] (Mem.initAllocator 1024)) "").2.allocationHistory =
      (Mem.runOps [] (Mem.initAllocator 1024)).allocationHistory ++
        [("释放", "", true)] :=
  (deallocate_empty_name 1024 []).1 (by decide)

namespace Mem

theorem runOps_totalSize (ops : List AllocOp) :
    ∀ (st : Allocator), (runOps ops st).totalSize = st.totalSize := by
  induction ops with
  | nil => intro st; rfl
  | cons op rest ih =>
    intro st
    have he : runOps (op :: rest) st = runOps rest (runOp st op) := rfl
    rw [he, ih]
    match op with
    | .alloc name size alg => exact allocate_totalSize st _ alg
    | .dealloc name => exact deallocate_totalSize st name

end Mem

/-- C6: after every op sequence with positive request sizes on a fresh
allocator, the block list tiles `[0, total_size)` exactly (first block at
0, blocks abutting, last ending at total_size, positive sizes), is
sorted by start address, and has no two adjacent free blocks. -/
theorem allocator_blocks_invariant (total : Nat) (ops : List Mem.AllocOp)
    (h0 : 0 < total) (hops : Mem.positiveSizes ops) :
    Mem.chainFrom 0 total (Mem.runOps ops (Mem.initAllocator total)).blocks ∧
    (Mem.runOps ops (Mem.initAllocator total)).blocks.Pairwise
      (fun a b => a.start < b.start) ∧
    Mem.noAdjFree (Mem.runOps ops (Mem.initAllocator total)).blocks := by
  have hinv := Mem.runOps_inv ops _ (Mem.initAllocator_inv total h0) hops
  obtain ⟨hc, hn, _⟩ := hinv
  rw [Mem.runOps_totalSize] at hc
  exact ⟨hc, Mem.chainFrom_pairwise _ _ _ hc, hn⟩

/-- Witness for C6: a mixed workload over all four strategies, including
a failing request. -/
theorem allocator_blocks_invariant_witness :
    (0 < 1024 ∧ Mem.positiveSizes
      [.alloc "A" 100 .FIRST_FIT, .alloc "B" 200 .BEST_FIT,
       .alloc "C" 2000 .WORST_FIT, .dealloc "A",
       .alloc "D" 50 .NEXT_FIT, .dealloc "B"]) ∧
    (Mem.chainFrom 0 1024 (Mem.runOps
        [.alloc "A" 100 .FIRST_FIT, .alloc "B" 200 .BEST_FIT,
         .alloc "C" 2000 .WORST_FIT, .dealloc "A",
         .alloc "D" 50 .NEXT_FIT, .dealloc "B"]
        (Mem.initAllocator 1024)).blocks ∧
      (Mem.runOps
        [.alloc "A" 100 .FIRST_FIT, .alloc "B" 200 .BEST_FIT,
         .alloc "C" 2000 .WORST_FIT, .dealloc "A",
         .alloc "D" 50 .NEXT_FIT, .dealloc "B"]
        (Mem.initAllocator 1024)).blocks.Pairwise
          (fun a b => a.start < b.start) ∧
      Mem.noAdjFree (Mem.runOps
        [.alloc "A" 100 .FIRST_FIT, .alloc "B" 200 .BEST_FIT,
         .alloc "C" 2000 .WORST_FIT, .dealloc "A",
         .alloc "D" 50 .NEXT_FIT, .dealloc "B"]
        (Mem.initAllocator 1024)).blocks) :=
  ⟨⟨by decide, by decide⟩,
    allocator_blocks_invariant 1024
      [.alloc "A" 100 .FIRST_FIT, .alloc "B" 200 .BEST_FIT,
       .alloc "C" 2000 .WORST_FIT, .dealloc "A",
       .alloc "D" 50 .NEXT_FIT, .dealloc "B"]
      (by decide) (by decide)⟩

namespace Mem

theorem runAllocsWithNames_cons (n : String) (sz : Nat) (alg : AllocAlg)
    (rest : List (String × Nat × AllocAlg)) (st : Allocator) :
    runAllocsWithNames ((n, sz, alg) :: rest) st =
      ((runAllocsWithNames rest (allocate st ⟨n, sz⟩ alg).2).1,
       if (allocate st ⟨n, sz⟩ alg).1 then
         n :: (runAllocsWithNames rest (allocate st ⟨n, sz⟩ alg).2).2
       else (runAllocsWithNames rest (allocate st ⟨n, sz⟩ alg).2).2) := rfl

theorem runAllocsWithNames_inv (allocs : List (String × Nat × AllocAlg)) :
    ∀ (st : Allocator), AllocInv st → (∀ a ∈ allocs, 0 < a.2.1) →
      AllocInv (runAllocsWithNames allocs st).1 := by
  induction allocs with
  | nil => intro st h _; exact h
  | cons a rest ih =>
    intro st h hsz
    match a with
    | (n, sz, alg) =>
      rw [runAllocsWithNames_cons]
      exact ih _ (allocate_inv st ⟨n, sz⟩ alg h (hsz _ (List.mem_cons_self _ _)))
        (fun x hx => hsz x (List.mem_cons_of_mem _ hx))

theorem runAllocsWithNames_totalSize (allocs : List (String × Nat × AllocAlg)) :
    ∀ (st : Allocator),
      (runAllocsWithNames allocs st).1.totalSize = st.totalSize := by
  induction allocs with
  | nil => intro st; rfl
  | cons a rest ih =>
    intro st
    match a with
    | (n, sz, alg) =>
      rw [runAllocsWithNames_cons]
      simp only []
      rw [ih, allocate_totalSize]

/-- Every allocated block after a pure allocation run either carries the
name of a successful request or was already allocated beforehand. -/
theorem runAllocsWithNames_nonfree_name
    (allocs : List (String × Nat × AllocAlg)) :
    ∀ (st : Allocator) (b : MemoryBlock),
      b ∈ (runAllocsWithNames allocs st).1.blocks → b.isFree = false →
      b.processName ∈ (runAllocsWithNames allocs st).2 ∨
        (∃ b0 ∈ st.blocks, b0.isFree = false ∧
          b0.processName = b.processName) := by
  induction allocs with
  | nil =>
    intro st b hb hbf
    exact Or.inr ⟨b, hb, hbf, rfl⟩
  | cons a rest ih =>
    intro st b hb hbf
    match a with
    | (n, sz, alg) =>
      rw [runAllocsWithNames_cons] at hb ⊢
      rcases ih (allocate st ⟨n, sz⟩ alg).2 b hb hbf with hin | ⟨b0, hb0, hb0f, hb0n⟩
      · refine Or.inl ?_
        by_cases hok : (allocate st ⟨n, sz⟩ alg).1
        · rw [if_pos hok]
          exact List.mem_cons_of_mem _ hin
        · rw [if_neg hok]
          exact hin
      · rcases allocate_structure st ⟨n, sz⟩ alg with ⟨hfail, hbl⟩ | ⟨i, _, hok, hbl⟩
        · rw [hbl] at hb0
          exact Or.inr ⟨b0, hb0, hb0f, hb0n⟩
        · rw [hbl] at hb0
          rcases splitBlock_mem _ _ i b0 hb0 with h | h | h
          · exact Or.inr ⟨b0, h, hb0f, hb0n⟩
          · refine Or.inl ?_
            rw [if_pos hok]
            rw [← hb0n, h.2]
            exact List.mem_cons_self _ _
          · rw [h.1] at hb0f; cases hb0f

theorem deallocate_nonfree_mem (st : Allocator) (name : String)
    (b : MemoryBlock) (hb : b ∈ (deallocate st name).2.blocks)
    (hbf : b.isFree = false) :
    b ∈ st.blocks ∧ b.processName ≠ name := by
  by_cases h : st.blocks.any (fun x => x.processName == name) = true
  · rw [deallocate_blocks_found st name h] at hb
    have hb2 := mergeFreeBlocks_nonfree_mem _ b hb hbf
    obtain ⟨x, hx, hxe⟩ := List.mem_map.mp hb2
    by_cases hxn : x.processName == name
    · rw [if_pos hxn] at hxe
      rw [← hxe] at hbf
      cases hbf
    · rw [if_neg hxn] at hxe
      subst hxe
      exact ⟨hx, by simpa using hxn⟩
  · rw [deallocate_blocks_not_found st name h] at hb
    have hall := List.any_eq_false.mp ((Bool.not_eq_true _).mp h)
    exact ⟨hb, by simpa using hall b hb⟩

theorem deallocAll_nonfree (names : List String) :
    ∀ (st : Allocator) (b : MemoryBlock),
      b ∈ (deallocAll names st).blocks → b.isFree = false →
      b ∈ st.blocks ∧ b.processName ∉ names := by
  induction names with
  | nil => intro st b hb hbf; exact ⟨hb, by simp⟩
  | cons n rest ih =>
    intro st b hb hbf
    have he : deallocAll (n :: rest) st = deallocAll rest (deallocate st n).2 := rfl
    rw [he] at hb
    obtain ⟨hb2, hnotin⟩ := ih _ b hb hbf
    obtain ⟨hb3, hne⟩ := deallocate_nonfree_mem st n b hb2 hbf
    refine ⟨hb3, ?_⟩
    intro hcon
    rcases List.mem_cons.mp hcon with hcon | hcon
    · exact hne hcon
    · exact hnotin hcon

theorem deallocAll_inv (names : List String) :
    ∀ (st : Allocator), AllocInv st → AllocInv (deallocAll names st) := by
  induction names with
  | nil => intro st h; exact h
  | cons n rest ih =>
    intro st h
    exact ih _ (deallocate_inv st n h)

theorem deallocAll_totalSize (names : List String) :
    ∀ (st : Allocator), (deallocAll names st).totalSize = st.totalSize := by
  induction names with
  | nil => intro st; rfl
  | cons n rest ih =>
    intro st
    have he : deallocAll (n :: rest) st = deallocAll rest (deallocate st n).2 := rfl
    rw [he, ih, deallocate_totalSize]

/-- A fully-free invariant-satisfying allocator is the single block
`[0, total_size)`. -/
theorem inv_allfree_shape (st : Allocator) (hi : AllocInv st)
    (h0 : 0 < st.totalSize) (hall : ∀ b ∈ st.blocks, b.isFree = true) :
    st.blocks =
      [{ start := 0, size := st.totalSize, isFree := true, processName := "" }] := by
  obtain ⟨hc, hn, hf⟩ := hi
  match hbl : st.blocks with
  | [] =>
    rw [hbl] at hc
    have : (0 : Nat) = st.totalSize := hc
    omega
  | [b] =>
    rw [hbl] at hc hf hall
    have h2 : b.start = 0 ∧ 0 < b.size ∧ chainFrom (0 + b.size) st.totalSize [] := hc
    have h3 : (0 + b.size : Nat) = st.totalSize := h2.2.2
    have hbfree : b.isFree = true := hall b (List.mem_cons_self _ _)
    have hbname : b.processName = "" := hf b (List.mem_cons_self _ _) hbfree
    obtain ⟨bs, bsz, bfr, bnm⟩ := b
    simp only at h2 h3 hbfree hbname
    simp only [List.cons.injEq, and_true, MemoryBlock.mk.injEq]
    exact ⟨h2.1, by omega, hbfree, hbname⟩
  | a :: b :: rest =>
    rw [hbl] at hn hall
    exact absurd ⟨hall a (List.mem_cons_self _ _),
      hall b (List.mem_cons_of_mem _ (List.mem_cons_self _ _))⟩ (noAdjFree_cons _ _ _ hn)

end Mem

/-- C5: allocating any mix of requests (positive sizes, any strategies)
on a fresh allocator and then deallocating every successfully allocated
process name returns the block list to the single free block
`[0, total_size)`. -/
theorem alloc_dealloc_roundtrip (total : Nat)
    (allocs : List (String × Nat × Mem.AllocAlg))
    (h0 : 0 < total) (hsz : ∀ a ∈ allocs, 0 < a.2.1) :
    (Mem.deallocAll (Mem.runAllocsWithNames allocs (Mem.initAllocator total)).2
      (Mem.runAllocsWithNames allocs (Mem.initAllocator total)).1).blocks =
    [{ start := 0, size := total, isFree := true, processName := "" }] := by
  set st1 := (Mem.runAllocsWithNames allocs (Mem.initAllocator total)).1 with hst1
  set names := (Mem.runAllocsWithNames allocs (Mem.initAllocator total)).2 with hnames
  have hinv1 : Mem.AllocInv st1 :=
    Mem.runAllocsWithNames_inv allocs _ (Mem.initAllocator_inv total h0) hsz
  have hinv2 : Mem.AllocInv (Mem.deallocAll names st1) :=
    Mem.deallocAll_inv names st1 hinv1
  have hts : (Mem.deallocAll names st1).totalSize = total := by
    rw [Mem.deallocAll_totalSize, hst1, Mem.runAllocsWithNames_totalSize]
    rfl
  have hall : ∀ b ∈ (Mem.deallocAll names st1).blocks, b.isFree = true := by
    intro b hb
    cases hbf : b.isFree
    · obtain ⟨hb1, hnotin⟩ := Mem.deallocAll_nonfree names st1 b hb hbf
      rcases Mem.runAllocsWithNames_nonfree_name allocs _ b hb1 hbf with hin | ⟨b0, hb0, hb0f, _⟩
      · exact absurd hin hnotin
      · rcases List.mem_cons.mp hb0 with he | he
        · rw [he] at hb0f; cases hb0f
        · cases he
    · rfl
  have := Mem.inv_allfree_shape _ hinv2 (by rw [hts]; exact h0) hall
  rw [hts] at this
  exact this

/-- Witness for C5: three allocations over three strategies (one request
failing), then deallocation of the two successful names. -/
theorem alloc_dealloc_roundtrip_witness :
    (0 < 1024 ∧ ∀ a ∈ ([("A", 100, Mem.AllocAlg.FIRST_FIT),
        ("B", 2000, Mem.AllocAlg.BEST_FIT),
        ("C", 300, Mem.AllocAlg.NEXT_FIT)] :
        List (String × Nat × Mem.AllocAlg)), 0 < a.2.1) ∧
    (Mem.deallocAll
      (Mem.runAllocsWithNames [("A", 100, .FIRST_FIT), ("B", 2000, .BEST_FIT),
        ("C", 300, .NEXT_FIT)] (Mem.initAllocator 1024)).2
      (Mem.runAllocsWithNames [("A", 100, .FIRST_FIT), ("B", 2000, .BEST_FIT),
        ("C", 300, .NEXT_FIT)] (Mem.initAllocator 1024)).1).blocks =
    [{ start := 0, size := 1024, isFree := true, processName := "" }] :=
  ⟨⟨by decide, by decide⟩,
    alloc_dealloc_roundtrip 1024
      [("A", 100, .FIRST_FIT), ("B", 2000, .BEST_FIT), ("C", 300, .NEXT_FIT)]
      (by decide) (by decide)⟩

namespace Proc

theorem findProc_mem (ps : List PCB) (pid : Nat) (p : PCB)
    (h : findProc ps pid = some p) : p ∈ ps ∧ p.pid = pid := by
  unfold findProc at h
  refine ⟨List.mem_of_find?_eq_some h, ?_⟩
  have := List.find?_some h
  simpa using this

theorem findProc_isSome (ps : List PCB) (pid : Nat) (p : PCB)
    (hp : p ∈ ps) (hpid : p.pid = pid) : ∃ q, findProc ps pid = some q := by
  unfold findProc
  have : (ps.find? (fun x => x.pid == pid)).isSome := by
    rw [List.find?_isSome]
    exact ⟨p, hp, by simp [hpid]⟩
  match hq : ps.find? (fun x => x.pid == pid) with
  | some q => exact ⟨q, hq⟩
  | none => rw [hq] at this; cases this

theorem pid_unique (ps : List PCB) (hn : (ps.map (fun p => p.pid)).Nodup)
    (p q : PCB) (hp : p ∈ ps) (hq : q ∈ ps) (he : p.pid = q.pid) : p = q := by
  induction ps with
  | nil => cases hp
  | cons x rest ih =>
    simp only [List.map_cons, List.nodup_cons] at hn
    rcases List.mem_cons.mp hp with hp1 | hp1 <;>
      rcases List.mem_cons.mp hq with hq1 | hq1
    · rw [hp1, hq1]
    · subst hp1
      exact absurd (he ▸ List.mem_map_of_mem (fun p => p.pid) hq1) hn.1
    · subst hq1
      exact absurd (he ▸ List.mem_map_of_mem (fun p => p.pid) hp1) hn.1
    · exact ih hn.2 hp1 hq1

theorem setState_pids (ps : List PCB) (pid : Nat) (s : PState) :
    (setState ps pid s).map (fun p => p.pid) = ps.map (fun p => p.pid) := by
  unfold setState
  rw [List.map_map]
  apply List.map_congr_left
  intro p _
  by_cases h : p.pid = pid <;> simp [h]

theorem mem_setState_of_ne (ps : List PCB) (pid : Nat) (s : PState) (p : PCB)
    (hp : p ∈ ps) (hne : p.pid ≠ pid) : p ∈ setState ps pid s := by
  unfold setState
  have : (if p.pid == pid then { p with state := s } else p) = p := by
    rw [if_neg (by simpa using hne)]
  rw [← this]
  exact List.mem_map_of_mem _ hp

theorem mem_setState_self (ps : List PCB) (pid : Nat) (s : PState) (p : PCB)
    (hp : p ∈ ps) (he : p.pid = pid) :
    ({ p with state := s } : PCB) ∈ setState ps pid s := by
  unfold setState
  have : (if p.pid == pid then { p with state := s } else p) =
      { p with state := s } := by
    rw [if_pos (by simpa using he)]
  rw [← this]
  exact List.mem_map_of_mem _ hp

theorem setState_mem_inv (ps : List PCB) (pid : Nat) (s : PState) (p' : PCB)
    (h : p' ∈ setState ps pid s) :
    (p' ∈ ps ∧ p'.pid ≠ pid) ∨
      (∃ p ∈ ps, p.pid = pid ∧ p' = { p with state := s }) := by
  unfold setState at h
  obtain ⟨p, hp, he⟩ := List.mem_map.mp h
  by_cases hc : p.pid == pid
  · rw [if_pos hc] at he
    exact Or.inr ⟨p, hp, by simpa using hc, he.symm⟩
  · rw [if_neg hc] at he
    subst he
    exact Or.inl ⟨hp, by simpa using hc⟩

theorem validTransition_to_running (s : PState)
    (h : validTransition s .RUNNING = true) : s = .READY := by
  cases s <;> first | rfl | (exact absurd h (by simp [validTransition]))

end Proc

namespace Proc

theorem createProcess_inv (st : Manager) (name : String) (arrival burst : ℚ)
    (hi : ManagerInv st) : ManagerInv (createProcess st name arrival burst) := by
  obtain ⟨hN, hB, hU, hE⟩ := hi
  refine ⟨?_, ?_, ?_, ?_⟩
  · show ((st.processes ++ [({ pid := st.nextPid, name := name, state := .CREATED, arrival := arrival, burst := burst, remaining := burst } : PCB)]).map (fun p => p.pid)).Nodup
    rw [List.map_append]
    rw [List.nodup_append]
    refine ⟨hN, List.nodup_singleton _, ?_⟩
    intro x hx hx2
    simp only [List.map_cons, List.map_nil, List.mem_singleton] at hx2
    obtain ⟨p, hp, hpe⟩ := List.mem_map.mp hx
    have := hB p hp
    omega
  · intro p hp
    rcases List.mem_append.mp hp with h | h
    · have := hB p h
      show p.pid < st.nextPid + 1
      omega
    · rcases List.mem_singleton.mp h with rfl
      show st.nextPid < st.nextPid + 1
      omega
  · intro p hp hrun
    rcases List.mem_append.mp hp with h | h
    · exact hU p h hrun
    · rcases List.mem_singleton.mp h with rfl
      exact absurd hrun (by simp)
  · intro r hr
    obtain ⟨p, hp, hpe, hps⟩ := hE r hr
    exact ⟨p, List.mem_append_left _ hp, hpe, hps⟩

theorem ready_inv (st : Manager) (pid : Nat) (hi : ManagerInv st) :
    ManagerInv (ready st pid).2 := by
  obtain ⟨hN, hB, hU, hE⟩ := hi
  unfold ready
  by_cases hc : !canTransition st pid PState.READY
  · rw [if_pos hc]
    exact ⟨hN, hB, hU, hE⟩
  · rw [if_neg hc]
    refine ⟨?_, ?_, ?_, ?_⟩
    · show ((setState st.processes pid .READY).map (fun p => p.pid)).Nodup
      rw [setState_pids]
      exact hN
    · intro p hp
      rcases setState_mem_inv _ _ _ p hp with ⟨hmem, _⟩ | ⟨q, hq, _, he⟩
      · exact hB p hmem
      · rw [he]
        exact hB q hq
    · intro p hp hrun
      rcases setState_mem_inv _ _ _ p hp with ⟨hmem, hne⟩ | ⟨q, hq, _, he⟩
      · have hr := hU p hmem hrun
        have hnp : st.runningProcess ≠ some pid := by
          rw [hr]
          simpa using hne
        show (if st.runningProcess = some pid then none else st.runningProcess) =
          some p.pid
        rw [if_neg hnp]
        exact hr
      · rw [he] at hrun
        exact absurd hrun (by simp)
    · intro r hr
      have hr2 : (if st.runningProcess = some pid then none
          else st.runningProcess) = some r := hr
      by_cases hrp : st.runningProcess = some pid
      · rw [if_pos hrp] at hr2
        cases hr2
      · rw [if_neg hrp] at hr2
        obtain ⟨p, hp, hpe, hps⟩ := hE r hr2
        have hne : p.pid ≠ pid := by
          intro hcon
          rw [← hpe, hcon] at hr2
          exact hrp hr2
        exact ⟨p, mem_setState_of_ne _ _ _ p hp hne, hpe, hps⟩

theorem block_inv (st : Manager) (pid : Nat) (hi : ManagerInv st) :
    ManagerInv (block st pid).2 := by
  obtain ⟨hN, hB, hU, hE⟩ := hi
  unfold block
  by_cases hc : !canTransition st pid PState.BLOCKED
  · rw [if_pos hc]
    exact ⟨hN, hB, hU, hE⟩
  · rw [if_neg hc]
    refine ⟨?_, ?_, ?_, ?_⟩
    · show ((setState st.processes pid .BLOCKED).map (fun p => p.pid)).Nodup
      rw [setState_pids]
      exact hN
    · intro p hp
      rcases setState_mem_inv _ _ _ p hp with ⟨hmem, _⟩ | ⟨q, hq, _, he⟩
      · exact hB p hmem
      · rw [he]
        exact hB q hq
    · intro p hp hrun
      rcases setState_mem_inv _ _ _ p hp with ⟨hmem, hne⟩ | ⟨q, hq, _, he⟩
      · have hr := hU p hmem hrun
        have hnp : st.runningProcess ≠ some pid := by
          rw [hr]
          simpa using hne
        show (if st.runningProcess = some pid then none else st.runningProcess) =
          some p.pid
        rw [if_neg hnp]
        exact hr
      · rw [he] at hrun
        exact absurd hrun (by simp)
    · intro r hr
      have hr2 : (if st.runningProcess = some pid then none
          else st.runningProcess) = some r := hr
      by_cases hrp : st.runningProcess = some pid
      · rw [if_pos hrp] at hr2
        cases hr2
      · rw [if_neg hrp] at hr2
        obtain ⟨p, hp, hpe, hps⟩ := hE r hr2
        have hne : p.pid ≠ pid := by
          intro hcon
          rw [← hpe, hcon] at hr2
          exact hrp hr2
        exact ⟨p, mem_setState_of_ne _ _ _ p hp hne, hpe, hps⟩

theorem terminate_inv (st : Manager) (pid : Nat) (hi : ManagerInv st) :
    ManagerInv (terminate st pid).2 := by
  obtain ⟨hN, hB, hU, hE⟩ := hi
  unfold terminate
  split
  case h_1 => exact ⟨hN, hB, hU, hE⟩
  case h_2 p0 hf =>
    split
    case isTrue => exact ⟨hN, hB, hU, hE⟩
    case isFalse hts =>
      refine ⟨?_, ?_, ?_, ?_⟩
      · show ((setState st.processes pid .TERMINATED).map (fun p => p.pid)).Nodup
        rw [setState_pids]
        exact hN
      · intro p hp
        rcases setState_mem_inv _ _ _ p hp with ⟨hmem, _⟩ | ⟨q, hq, _, he⟩
        · exact hB p hmem
        · rw [he]
          exact hB q hq
      · intro p hp hrun
        rcases setState_mem_inv _ _ _ p hp with ⟨hmem, hne⟩ | ⟨q, hq, _, he⟩
        · have hr := hU p hmem hrun
          have hnp : st.runningProcess ≠ some pid := by
            rw [hr]
            simpa using hne
          show (if st.runningProcess = some pid then none
            else st.runningProcess) = some p.pid
          rw [if_neg hnp]
          exact hr
        · rw [he] at hrun
          exact absurd hrun (by simp)
      · intro r hr
        have hr2 : (if st.runningProcess = some pid then none
            else st.runningProcess) = some r := hr
        by_cases hrp : st.runningProcess = some pid
        · rw [if_pos hrp] at hr2
          cases hr2
        · rw [if_neg hrp] at hr2
          obtain ⟨p, hp, hpe, hps⟩ := hE r hr2
          have hne : p.pid ≠ pid := by
            intro hcon
            rw [← hpe, hcon] at hr2
            exact hrp hr2
          exact ⟨p, mem_setState_of_ne _ _ _ p hp hne, hpe, hps⟩

end Proc

namespace Proc

theorem canTransition_running_state (st : Manager) (pid : Nat)
    (h : canTransition st pid .RUNNING = true) :
    ∃ p0, findProc st.processes pid = some p0 ∧ p0.state = .READY := by
  unfold canTransition at h
  match hf : findProc st.processes pid with
  | none => rw [hf] at h; cases h
  | some p0 =>
    rw [hf] at h
    exact ⟨p0, rfl, validTransition_to_running _ h⟩

theorem canTransition_ready_of_running (st : Manager) (q : Nat)
    (hi : ManagerInv st) (hrq : st.runningProcess = some q) :
    canTransition st q .READY = true := by
  obtain ⟨hN, _, _, hE⟩ := hi
  obtain ⟨pq, hpq, hpqe, hpqs⟩ := hE q hrq
  obtain ⟨p1, hp1⟩ := findProc_isSome st.processes q pq hpq hpqe
  obtain ⟨hp1m, hp1e⟩ := findProc_mem _ _ _ hp1
  have : p1 = pq := pid_unique st.processes hN p1 pq hp1m hpq (by rw [hp1e, hpqe])
  unfold canTransition
  rw [hp1, this]
  show validTransition pq.state .READY = true
  rw [hpqs]
  rfl

theorem ready_succ (st : Manager) (q : Nat)
    (hq : canTransition st q .READY = true) :
    (ready st q).2.processes = setState st.processes q .READY ∧
    (ready st q).2.runningProcess =
      (if st.runningProcess = some q then none else st.runningProcess) ∧
    (ready st q).2.nextPid = st.nextPid := by
  unfold ready
  rw [if_neg (by rw [hq]; simp)]
  exact ⟨rfl, rfl, rfl⟩

theorem run_fst (st : Manager) (pid : Nat) :
    (run st pid).1 = canTransition st pid .RUNNING := by
  unfold run
  by_cases hc : canTransition st pid PState.RUNNING = true
  · rw [if_neg (by rw [hc]; simp), hc]
  · have hcf : canTransition st pid PState.RUNNING = false := by
      revert hc
      cases canTransition st pid PState.RUNNING <;> simp
    rw [if_pos (by rw [hcf]; rfl), hcf]

theorem runDisplace_none (st : Manager) (pid : Nat)
    (hrp : st.runningProcess = none) : runDisplace st pid = st := by
  unfold runDisplace
  rw [hrp]

theorem runDisplace_self (st : Manager) (q : Nat)
    (hrp : st.runningProcess = some q) : runDisplace st q = st := by
  simp only [runDisplace, hrp]
  rw [if_neg (by simp)]

theorem runDisplace_other (st : Manager) (pid q : Nat)
    (hrp : st.runningProcess = some q) (hne : q ≠ pid) :
    runDisplace st pid = (ready st q).2 := by
  simp only [runDisplace, hrp]
  rw [if_pos hne]

theorem run_succ (st : Manager) (pid : Nat)
    (hc : canTransition st pid .RUNNING = true) :
    (run st pid).2 = { runDisplace st pid with
      processes := setState (runDisplace st pid).processes pid .RUNNING
      readyQueue :=
        if pid ∈ (runDisplace st pid).readyQueue then
          (runDisplace st pid).readyQueue.erase pid
        else (runDisplace st pid).readyQueue
      runningProcess := some pid } := by
  unfold run
  rw [if_neg (by rw [hc]; simp)]

theorem run_core_inv (st1 : Manager) (pid : Nat) (h1 : ManagerInv st1)
    (hnr : ∀ p ∈ st1.processes, p.state = .RUNNING → p.pid = pid)
    (hex : ∃ p ∈ st1.processes, p.pid = pid) :
    ManagerInv { st1 with
      processes := setState st1.processes pid .RUNNING
      readyQueue :=
        if pid ∈ st1.readyQueue then st1.readyQueue.erase pid
        else st1.readyQueue
      runningProcess := some pid } := by
  obtain ⟨hN, hB, hU, hE⟩ := h1
  obtain ⟨pe, hpe, hpee⟩ := hex
  refine ⟨?_, ?_, ?_, ?_⟩
  · show ((setState st1.processes pid .RUNNING).map (fun p => p.pid)).Nodup
    rw [setState_pids]
    exact hN
  · intro p hp
    rcases setState_mem_inv _ _ _ p hp with ⟨hmem, _⟩ | ⟨q, hq, _, he⟩
    · exact hB p hmem
    · rw [he]
      exact hB q hq
  · intro p hp hrun
    rcases setState_mem_inv _ _ _ p hp with ⟨hmem, hne⟩ | ⟨q, hq, hqe, he⟩
    · exact absurd (hnr p hmem hrun) hne
    · show some pid = some p.pid
      rw [he]
      show some pid = some q.pid
      rw [hqe]
  · intro r hr
    have hrr : r = pid := by
      have : some pid = some r := hr
      cases this
      rfl
    subst hrr
    refine ⟨{ pe with state := .RUNNING }, mem_setState_self _ _ _ pe hpe hpee,
      hpee, rfl⟩

theorem run_inv (st : Manager) (pid : Nat) (hi : ManagerInv st) :
    ManagerInv (run st pid).2 := by
  by_cases hc : canTransition st pid PState.RUNNING = true
  · rw [run_succ st pid hc]
    obtain ⟨p0, hf, hp0s⟩ := canTransition_running_state st pid hc
    obtain ⟨hp0m, hp0e⟩ := findProc_mem _ _ _ hf
    match hrp : st.runningProcess with
    | none =>
      rw [runDisplace_none st pid hrp]
      exact run_core_inv st pid hi
        (fun p hp hr => by
          have := hi.2.2.1 p hp hr
          rw [hrp] at this
          cases this)
        ⟨p0, hp0m, hp0e⟩
    | some q =>
      by_cases hqp : q ≠ pid
      · rw [runDisplace_other st pid q hrp hqp]
        have hcr := canTransition_ready_of_running st q hi hrp
        have hrs := ready_succ st q hcr
        have hinv1 := ready_inv st q hi
        refine run_core_inv (ready st q).2 pid hinv1 ?_ ?_
        · intro p hp hr
          have hrun := hinv1.2.2.1 p hp hr
          rw [hrs.2.1, if_pos hrp] at hrun
          cases hrun
        · refine ⟨p0, ?_, hp0e⟩
          rw [hrs.1]
          refine mem_setState_of_ne _ _ _ p0 hp0m ?_
          rw [hp0e]
          intro hcon
          exact hqp hcon.symm
      · simp only [not_not] at hqp
        rw [hqp] at hrp
        rw [runDisplace_self st pid hrp]
        exact run_core_inv st pid hi
          (fun p hp hr => by
            have h2 := hi.2.2.1 p hp hr
            rw [hrp] at h2
            injection h2 with h3
            exact h3.symm)
          ⟨p0, hp0m, hp0e⟩
  · have hcf : canTransition st pid PState.RUNNING = false := by
      revert hc
      cases canTransition st pid PState.RUNNING <;> simp
    unfold run
    rw [if_pos (by rw [hcf]; rfl)]
    exact hi

theorem run_displaces (st : Manager) (pid q : Nat) (hi : ManagerInv st)
    (hrq : st.runningProcess = some q) (hne : q ≠ pid)
    (hs : (run st pid).1 = true) :
    ∃ p ∈ (run st pid).2.processes, p.pid = q ∧ p.state = .READY := by
  rw [run_fst] at hs
  obtain ⟨pq, hpq, hpqe, hpqs⟩ := hi.2.2.2 q hrq
  have hcr := canTransition_ready_of_running st q hi hrq
  have hrs := ready_succ st q hcr
  have hproc : (run st pid).2.processes =
      setState (ready st q).2.processes pid .RUNNING := by
    rw [run_succ st pid hs]
    show setState (runDisplace st pid).processes pid .RUNNING = _
    rw [runDisplace_other st pid q hrq hne]
  rw [hproc, hrs.1]
  refine ⟨{ pq with state := .READY }, ?_, hpqe, rfl⟩
  refine mem_setState_of_ne _ _ _ _ (mem_setState_self _ _ _ pq hpq hpqe) ?_
  show pq.pid ≠ pid
  rw [hpqe]
  exact hne

end Proc

namespace Proc

theorem terminate_succ (st : Manager) (pid : Nat) (p0 : PCB)
    (hf : findProc st.processes pid = some p0)
    (hts : ¬p0.state = PState.TERMINATED) :
    (terminate st pid).2.processes = setState st.processes pid .TERMINATED ∧
    (terminate st pid).2.runningProcess =
      (if st.runningProcess = some pid then none else st.runningProcess) ∧
    (terminate st pid).2.nextPid = st.nextPid := by
  simp only [terminate, hf]
  rw [if_neg hts]
  exact ⟨rfl, rfl, rfl⟩

theorem terminate_fail (st : Manager) (pid : Nat) (p0 : PCB)
    (hf : findProc st.processes pid = some p0)
    (hts : p0.state = PState.TERMINATED) :
    (terminate st pid).2 = st := by
  simp only [terminate, hf]
  rw [if_pos hts]

theorem deleteProcess_inv (st : Manager) (pid : Nat) (hi : ManagerInv st) :
    ManagerInv (deleteProcess st pid).2 := by
  unfold deleteProcess
  split
  case h_1 => exact hi
  case h_2 p0 hf =>
    have hti := terminate_inv st pid hi
    obtain ⟨hN, hB, hU, hE⟩ := hti
    have hrne : ∀ r, (terminate st pid).2.runningProcess = some r → r ≠ pid := by
      intro r hr hcon
      subst hcon
      by_cases hts : p0.state = PState.TERMINATED
      · rw [terminate_fail st r p0 hf hts] at hr
        obtain ⟨p, hp, hpe, hps⟩ := hi.2.2.2 r hr
        obtain ⟨hp0m, hp0e⟩ := findProc_mem _ _ _ hf
        have := pid_unique st.processes hi.1 p p0 hp hp0m (by rw [hpe, hp0e])
        rw [this, hts] at hps
        cases hps
      · have := (terminate_succ st r p0 hf hts).2.1
        rw [this] at hr
        by_cases hrr : st.runningProcess = some r
        · rw [if_pos hrr] at hr
          cases hr
        · rw [if_neg hrr] at hr
          exact hrr hr
    refine ⟨?_, ?_, ?_, ?_⟩
    · show (((terminate st pid).2.processes.filter
        (fun p => p.pid ≠ pid)).map (fun p => p.pid)).Nodup
      exact hN.sublist ((List.filter_sublist _).map _)
    · intro p hp
      exact hB p (List.mem_of_mem_filter hp)
    · intro p hp hrun
      exact hU p (List.mem_of_mem_filter hp) hrun
    · intro r hr
      have hr2 : (terminate st pid).2.runningProcess = some r := hr
      obtain ⟨p, hp, hpe, hps⟩ := hE r hr2
      refine ⟨p, ?_, hpe, hps⟩
      rw [List.mem_filter]
      refine ⟨hp, ?_⟩
      have := hrne r hr2
      simp only [decide_eq_true_eq]
      rw [hpe]
      exact this

theorem initManager_inv : ManagerInv initManager := by
  refine ⟨List.nodup_nil, ?_, ?_, ?_⟩
  · intro p hp; cases hp
  · intro p hp; cases hp
  · intro r hr; cases hr

theorem pRunOp_inv (st : Manager) (op : POp) (hi : ManagerInv st) :
    ManagerInv (runOp st op) := by
  match op with
  | .create name arrival burst => exact createProcess_inv st name arrival burst hi
  | .ready pid => exact ready_inv st pid hi
  | .run pid => exact run_inv st pid hi
  | .block pid => exact block_inv st pid hi
  | .terminate pid => exact terminate_inv st pid hi
  | .delete pid => exact deleteProcess_inv st pid hi

theorem pRunOps_inv (ops : List POp) : ManagerInv (runOps ops) := by
  have : ∀ st, ManagerInv st → ManagerInv (ops.foldl runOp st) := by
    induction ops with
    | nil => intro st h; exact h
    | cons op rest ih =>
      intro st h
      exact ih (runOp st op) (pRunOp_inv st op h)
  exact this initManager initManager_inv

end Proc

/-- C7: after any sequence of manager operations, at most one process is
RUNNING, `running_process` is exactly the pid of the RUNNING process (or
None when there is none), and a successful `run(pid)` displaces any other
currently running process back to READY. -/
theorem process_manager_single_runner (ops : List Proc.POp) :
    (∀ p ∈ (Proc.runOps ops).processes, ∀ q ∈ (Proc.runOps ops).processes,
      p.state = .RUNNING → q.state = .RUNNING → p = q) ∧
    (∀ p ∈ (Proc.runOps ops).processes, p.state = .RUNNING →
      (Proc.runOps ops).runningProcess = some p.pid) ∧
    (∀ r, (Proc.runOps ops).runningProcess = some r →
      ∃ p ∈ (Proc.runOps ops).processes, p.pid = r ∧ p.state = .RUNNING) ∧
    (∀ pid q, (Proc.runOps ops).runningProcess = some q → q ≠ pid →
      (Proc.run (Proc.runOps ops) pid).1 = true →
      ∃ p ∈ (Proc.run (Proc.runOps ops) pid).2.processes,
        p.pid = q ∧ p.state = .READY) := by
  have hi := Proc.pRunOps_inv ops
  refine ⟨?_, hi.2.2.1, hi.2.2.2, ?_⟩
  · intro p hp q hq hpr hqr
    have h1 := hi.2.2.1 p hp hpr
    have h2 := hi.2.2.1 q hq hqr
    rw [h1] at h2
    injection h2 with h3
    exact Proc.pid_unique _ hi.1 p q hp hq h3
  · intro pid q hq hne hs
    exact Proc.run_displaces _ pid q hi hq hne hs

/-- Witness for C7 at a concrete op sequence with a displacement: two
created and readied processes, the first running, then `run(2)`. -/
theorem process_manager_single_runner_witness :
    (Proc.runOps [.create "A" 0 5, .create "B" 0 5, .ready 1, .ready 2,
        .run 1]).runningProcess = some 1 ∧
    (1 : Nat) ≠ 2 ∧
    (Proc.run (Proc.runOps [.create "A" 0 5, .create "B" 0 5, .ready 1,
        .ready 2, .run 1]) 2).1 = true ∧
    ∃ p ∈ (Proc.run (Proc.runOps [.create "A" 0 5, .create "B" 0 5,
        .ready 1, .ready 2, .run 1]) 2).2.processes,
      p.pid = 1 ∧ p.state = .READY :=
  ⟨by decide, by decide, by decide,
    (process_manager_single_runner
      [.create "A" 0 5, .create "B" 0 5, .ready 1, .ready 2, .run 1]).2.2.2
      2 1 (by decide) (by decide) (by decide)⟩

namespace Sync

theorem runPs_nonpos :
    ∀ (actors : List String) (v : Int) (q : List String), v ≤ 0 →
      runPs ⟨v, q⟩ actors =
        (⟨v - actors.length, q ++ actors⟩, [], actors) := by
  intro actors
  induction actors with
  | nil => intro v q _; simp [runPs]
  | cons a rest ih =>
    intro v q hv
    have hblock : pOp ⟨v, q⟩ a = (.blocked, ⟨v - 1, q ++ [a]⟩) := by
      unfold pOp
      rw [if_pos (by show v - 1 < 0; omega)]
    unfold runPs
    rw [hblock]
    show (match runPs ⟨v - 1, q ++ [a]⟩ rest with
      | (st, imm, blk) => (st, imm, a :: blk)) = _
    rw [ih (v - 1) (q ++ [a]) (by omega)]
    show ((⟨v - 1 - rest.length, (q ++ [a]) ++ rest⟩ : Sem), [], a :: rest) = _
    simp only [Prod.mk.injEq, Sem.mk.injEq, List.length_cons,
      List.append_assoc, List.singleton_append, and_true, true_and]
    push_cast
    omega

theorem runPs_spec :
    ∀ (actors : List String) (v : Int) (q : List String), 0 ≤ v →
      runPs ⟨v, q⟩ actors =
        (⟨v - actors.length, q ++ actors.drop v.toNat⟩,
          actors.take v.toNat, actors.drop v.toNat) := by
  intro actors
  induction actors with
  | nil =>
    intro v q _
    simp [runPs]
  | cons a rest ih =>
    intro v q hv
    by_cases hpos : 0 < v
    · have hgrant : pOp ⟨v, q⟩ a = (.granted, ⟨v - 1, q⟩) := by
        unfold pOp
        rw [if_neg (by show ¬(v - 1 < 0); omega)]
      unfold runPs
      rw [hgrant]
      show (match runPs ⟨v - 1, q⟩ rest with
        | (st, imm, blk) => (st, a :: imm, blk)) = _
      rw [ih (v - 1) q (by omega)]
      show ((⟨v - 1 - rest.length, q ++ rest.drop (v - 1).toNat⟩ : Sem),
        a :: rest.take (v - 1).toNat, rest.drop (v - 1).toNat) = _
      have htn : v.toNat = (v - 1).toNat + 1 := by omega
      rw [htn]
      simp only [List.take_succ_cons, List.drop_succ_cons, Prod.mk.injEq,
        List.cons.injEq, Sem.mk.injEq, List.length_cons, true_and, and_true]
      push_cast
      omega
    · have hz : v = 0 := by omega
      subst hz
      have hblock : pOp ⟨0, q⟩ a = (.blocked, ⟨0 - 1, q ++ [a]⟩) := by
        unfold pOp
        rw [if_pos (by show (0 : Int) - 1 < 0; omega)]
      unfold runPs
      rw [hblock]
      show (match runPs ⟨0 - 1, q ++ [a]⟩ rest with
        | (st, imm, blk) => (st, imm, a :: blk)) = _
      rw [runPs_nonpos rest (0 - 1) (q ++ [a]) (by omega)]
      show ((⟨0 - 1 - rest.length, (q ++ [a]) ++ rest⟩ : Sem), [],
        a :: rest) = _
      simp only [Int.toNat_zero, List.take_zero, List.drop_zero,
        Prod.mk.injEq, Sem.mk.injEq, List.length_cons, List.append_assoc,
        List.singleton_append, and_true, true_and]
      omega

theorem runVs_spec :
    ∀ (k : Nat) (v : Int) (q : List String), (k : Int) ≤ -v → k ≤ q.length →
      runVs ⟨v, q⟩ k = (⟨v + k, q.drop k⟩, q.take k) := by
  intro k
  induction k with
  | zero => intro v q _ _; simp [runVs]
  | succ n ih =>
    intro v q hk hq
    match q, hq with
    | w :: rest, hq =>
      have hgrant : vOp ⟨v, w :: rest⟩ = (some w, ⟨v + 1, rest⟩) := by
        unfold vOp
        rw [if_pos (by show v + 1 ≤ 0; push_cast at hk; omega)]
      unfold runVs
      rw [hgrant]
      show (match runVs ⟨v + 1, rest⟩ n with
        | (st, g) => (st, w :: g)) = _
      rw [ih (v + 1) rest (by push_cast at hk ⊢; omega) (by simp at hq; omega)]
      show ((⟨v + 1 + n, rest.drop n⟩ : Sem), w :: rest.take n) = _
      simp only [List.drop_succ_cons, List.take_succ_cons, Prod.mk.injEq,
        List.cons.injEq, Sem.mk.injEq, true_and, and_true]
      push_cast
      omega

end Sync

/-- C9: from initial value V with V < N callers, the first V `P` calls
are granted immediately and the remaining N−V block, entering the FIFO
waiting queue in call order; each of the next k ≤ N−V `V` calls (the
counter staying ≤ 0) wakes exactly one waiter, and the blocked callers
are granted in their original blocking order.  (Blocking `P` calls park
on the semaphore's condition variable in `waiting_queue` order and
`notify()` wakes the longest-waiting one, as CPython condition variables
do; the model fuses notify and the woken caller's resume into one atomic
grant of the queue head.) -/
theorem semaphore_fifo_grant (V : Nat) (actors : List String) (k : Nat)
    (hV : V < actors.length) (hk : k ≤ actors.length - V) :
    (Sync.runPs ⟨(V : Int), []⟩ actors).2.1 = actors.take V ∧
    (actors.take V).length = V ∧
    (Sync.runPs ⟨(V : Int), []⟩ actors).2.2 = actors.drop V ∧
    (actors.drop V).length = actors.length - V ∧
    (Sync.runPs ⟨(V : Int), []⟩ actors).1.waitingQueue = actors.drop V ∧
    (Sync.runVs (Sync.runPs ⟨(V : Int), []⟩ actors).1 k).2 =
      (actors.drop V).take k := by
  have hspec := Sync.runPs_spec actors (V : Int) [] (by positivity)
  rw [hspec]
  simp only [Int.toNat_natCast, List.nil_append]
  refine ⟨trivial, ?_, trivial, ?_, trivial, ?_⟩
  · rw [List.length_take]
    omega
  · rw [List.length_drop]
  · rw [Sync.runVs_spec k ((V : Int) - actors.length) (actors.drop V)
      (by omega) (by rw [List.length_drop]; omega)]

/-- Witness for C9: initial value 1, three callers, two releases. -/
theorem semaphore_fifo_grant_witness :
    ((1 : Nat) < (["a", "b", "c"] : List String).length ∧
      (2 : Nat) ≤ (["a", "b", "c"] : List String).length - 1) ∧
    ((Sync.runPs ⟨(1 : Int), []⟩ ["a", "b", "c"]).2.1 = ["a", "b", "c"].take 1 ∧
      ((["a", "b", "c"] : List String).take 1).length = 1 ∧
      (Sync.runPs ⟨(1 : Int), []⟩ ["a", "b", "c"]).2.2 = ["a", "b", "c"].drop 1 ∧
      ((["a", "b", "c"] : List String).drop 1).length =
        (["a", "b", "c"] : List String).length - 1 ∧
      (Sync.runPs ⟨(1 : Int), []⟩ ["a", "b", "c"]).1.waitingQueue =
        ["a", "b", "c"].drop 1 ∧
      (Sync.runVs (Sync.runPs ⟨(1 : Int), []⟩ ["a", "b", "c"]).1 2).2 =
        (["a", "b", "c"].drop 1).take 2) :=
  ⟨⟨by decide, by decide⟩,
    semaphore_fifo_grant 1 ["a", "b", "c"] 2 (by decide) (by decide)⟩

namespace Sched

theorem rrStart_remaining (c : SProc) (clock : ℚ) :
    (rrStart c clock).remaining = c.remaining := by
  unfold rrStart
  split <;> rfl

theorem rrStart_pid (c : SProc) (clock : ℚ) :
    (rrStart c clock).pid = c.pid := by
  unfold rrStart
  split <;> rfl

theorem admitQ_eq :
    ∀ (pending queue : List SProc) (clock : ℚ),
      admitQ clock pending queue =
        (queue ++ pending.takeWhile (fun p => decide (p.arrival ≤ clock)),
          pending.dropWhile (fun p => decide (p.arrival ≤ clock))) := by
  intro pending
  induction pending with
  | nil => intro queue clock; simp [admitQ]
  | cons p rest ih =>
    intro queue clock
    unfold admitQ
    by_cases hp : p.arrival ≤ clock
    · rw [if_pos hp, ih (queue ++ [p]) clock]
      rw [List.takeWhile_cons_of_pos (by simpa using hp),
        List.dropWhile_cons_of_pos (by simpa using hp)]
      simp
    · rw [if_neg hp]
      rw [List.takeWhile_cons_of_neg (by simpa using hp),
        List.dropWhile_cons_of_neg (by simpa using hp)]
      simp

theorem mem_takeWhile_of_sorted :
    ∀ (pending : List SProc) (clock : ℚ) (p : SProc),
      pending.Pairwise (fun a b => a.arrival ≤ b.arrival) →
      p ∈ pending → p.arrival ≤ clock →
      p ∈ pending.takeWhile (fun x => decide (x.arrival ≤ clock)) := by
  intro pending
  induction pending with
  | nil => intro clock p _ hp; cases hp
  | cons x rest ih =>
    intro clock p hsort hp harr
    rcases List.mem_cons.mp hp with hp1 | hp1
    · subst hp1
      rw [List.takeWhile_cons_of_pos (by simpa using harr)]
      exact List.mem_cons_self _ _
    · have hx : x.arrival ≤ clock :=
        le_trans (List.rel_of_pairwise_cons hsort hp1) harr
      rw [List.takeWhile_cons_of_pos (by simpa using hx)]
      exact List.mem_cons_of_mem _
        (ih clock p (List.Pairwise.of_cons hsort) hp1 harr)

end Sched

namespace Sched

theorem rrDispatch_gantt_bound (ts : ℚ) (colorSrc : List SProc) (c : SProc)
    (st : RRState)
    (hP : ∀ b ∈ st.gantt, b.endTime - b.startTime ≤ ts) :
    ∀ b ∈ (rrDispatch ts colorSrc c st).gantt,
      b.endTime - b.startTime ≤ ts := by
  intro b hbm
  unfold rrDispatch at hbm
  simp only [rrStart_remaining] at hbm
  split at hbm
  case isTrue h =>
    rcases List.mem_append.mp hbm with hm | hm
    · exact hP b hm
    · rcases List.mem_singleton.mp hm with rfl
      show st.clock + min ts c.remaining - st.clock ≤ ts
      have := min_le_left ts c.remaining
      linarith
  case isFalse h =>
    rcases List.mem_append.mp hbm with hm | hm
    · exact hP b hm
    · rcases List.mem_singleton.mp hm with rfl
      show st.clock + min ts c.remaining - st.clock ≤ ts
      have := min_le_left ts c.remaining
      linarith

theorem rrLoop_blocks (ts : ℚ) (colorSrc : List SProc) :
    ∀ (fuel : Nat) (st : RRState) (blocks : List GanttBlock)
      (upd : List SProc) (t : ℚ),
      rrLoop ts colorSrc fuel st = some (blocks, upd, t) →
      (∀ b ∈ st.gantt, b.endTime - b.startTime ≤ ts) →
      ∀ b ∈ blocks, b.endTime - b.startTime ≤ ts := by
  intro fuel
  induction fuel with
  | zero => intro st blocks upd t h; simp [rrLoop] at h
  | succ n ih =>
    intro st blocks upd t h hP
    unfold rrLoop at h
    split at h
    case isTrue hret =>
      cases h
      exact hP
    case isFalse hret =>
      have h2 : (match (admitQ st.clock st.pending st.queue).1 with
        | [] =>
          match (admitQ st.clock st.pending st.queue).2 with
          | p :: _ =>
            rrLoop ts colorSrc n
              { st with pending := (admitQ st.clock st.pending st.queue).2
                        queue := [], clock := p.arrival }
          | [] => rrLoop ts colorSrc n { st with pending := [], queue := [] }
        | c :: rest =>
          rrLoop ts colorSrc n
            (rrDispatch ts colorSrc c
              { st with pending := (admitQ st.clock st.pending st.queue).2
                        queue := rest })) = some (blocks, upd, t) := h
      match hq : (admitQ st.clock st.pending st.queue).1, h2 with
      | [], h2 =>
        match hq2 : (admitQ st.clock st.pending st.queue).2, h2 with
        | p :: rest2, h2 => exact ih _ _ _ _ h2 hP
        | [], h2 => exact ih _ _ _ _ h2 hP
      | c :: rest, h2 =>
        exact ih _ _ _ _ h2 (rrDispatch_gantt_bound ts colorSrc c _ hP)

theorem rrDispatch_requeue_order (ts : ℚ) (colorSrc : List SProc)
    (c : SProc) (st : RRState)
    (hsort : st.pending.Pairwise (fun a b => a.arrival ≤ b.arrival))
    (hunfin : 0 < c.remaining - min ts c.remaining) :
    ∃ front c', (rrDispatch ts colorSrc c st).queue = front ++ [c'] ∧
      c'.pid = c.pid ∧
      ∀ p ∈ st.pending, p.arrival ≤ st.clock + min ts c.remaining →
        p ∈ front := by
  unfold rrDispatch
  simp only [rrStart_remaining]
  rw [if_pos hunfin]
  rw [admitQ_eq]
  refine ⟨st.queue ++ st.pending.takeWhile
      (fun p => decide (p.arrival ≤ st.clock + min ts c.remaining)),
    { rrStart c st.clock with remaining := c.remaining - min ts c.remaining },
    rfl, ?_, ?_⟩
  · show (rrStart c st.clock).pid = c.pid
    exact rrStart_pid c st.clock
  · intro p hp harr
    exact List.mem_append_right _
      (mem_takeWhile_of_sorted st.pending _ p hsort hp harr)

end Sched

/-- C4: with quantum ts, (a) every Gantt block a round-robin run emits is
at most ts long, and (b) each dispatch appends the just-run, unfinished
process at the tail of the ready queue only after every process whose
arrival time is at most the new clock value (the tick boundary included)
has been admitted. -/
theorem round_robin_slice_and_admission :
    (∀ (procs : List Sched.SProc) (ts : ℚ) (fuel : Nat)
      (blocks : List Sched.GanttBlock) (upd : List Sched.SProc) (t : ℚ),
      0 < ts → Sched.roundRobin procs ts fuel = some (blocks, upd, t) →
      ∀ b ∈ blocks, b.endTime - b.startTime ≤ ts) ∧
    (∀ (ts : ℚ) (colorSrc : List Sched.SProc) (c : Sched.SProc)
      (st : Sched.RRState),
      st.pending.Pairwise (fun a b => a.arrival ≤ b.arrival) →
      0 < c.remaining - min ts c.remaining →
      ∃ front c', (Sched.rrDispatch ts colorSrc c st).queue = front ++ [c'] ∧
        c'.pid = c.pid ∧
        ∀ p ∈ st.pending, p.arrival ≤ st.clock + min ts c.remaining →
          p ∈ front) := by
  constructor
  · intro procs ts fuel blocks upd t _ h
    have h2 : (if (Sched.resetProcs procs).isEmpty = true then
        some (([] : List Sched.GanttBlock), ([] : List Sched.SProc), (0 : ℚ))
      else
        Sched.rrLoop ts (Sched.resetProcs procs) fuel
          { pending := Sched.insertionSort Sched.arrivalPidLt
              (Sched.resetProcs procs)
            queue := [], clock := 0, gantt := []
            selfProcs := Sched.resetProcs procs }) = some (blocks, upd, t) := h
    split at h2
    case isTrue =>
      cases h2
      intro b hb
      cases hb
    case isFalse =>
      exact Sched.rrLoop_blocks ts _ fuel _ blocks upd t h2
        (by intro b hb; cases hb)
  · intro ts colorSrc c st hsort hunfin
    exact Sched.rrDispatch_requeue_order ts colorSrc c st hsort hunfin

/-- Witness for C4: part (a) on the run `round_robin(quantum=2)` over
`[(P1,0,3)]`, part (b) on a dispatch with one pending arrival at the
boundary. -/
theorem round_robin_slice_and_admission_witness :
    ((0 : ℚ) < 2 ∧
      Sched.roundRobin [Sched.mkProc 1 "P1" 0 3] 2 10 =
        some ([{ pid := 1, name := "P1", startTime := 0, endTime := 2
                 colorIndex := 0 },
               { pid := 1, name := "P1", startTime := 2, endTime := 3
                 colorIndex := 0 }],
          [{ pid := 1, name := "P1", arrival := 0, burst := 3, priority := 1
             remaining := 0, startTime := 0, finishTime := 3, waiting := 0
             turnaround := 3 }], 3) ∧
      ([Sched.mkProc 2 "P2" 0 1] : List Sched.SProc).Pairwise
        (fun a b => a.arrival ≤ b.arrival) ∧
      (0 : ℚ) < (Sched.mkProc 1 "P1" 0 5).remaining -
        min 2 (Sched.mkProc 1 "P1" 0 5).remaining) ∧
    ((∀ b ∈ [({ pid := 1, name := "P1", startTime := 0, endTime := 2
                colorIndex := 0 } : Sched.GanttBlock),
              { pid := 1, name := "P1", startTime := 2, endTime := 3
                colorIndex := 0 }],
        b.endTime - b.startTime ≤ (2 : ℚ)) ∧
      ∃ front c',
        (Sched.rrDispatch 2 [] (Sched.mkProc 1 "P1" 0 5)
          { pending := [Sched.mkProc 2 "P2" 0 1], queue := [], clock := 0
            gantt := [], selfProcs := [] }).queue = front ++ [c'] ∧
        c'.pid = (Sched.mkProc 1 "P1" 0 5).pid ∧
        ∀ p ∈ [Sched.mkProc 2 "P2" 0 1],
          p.arrival ≤ (0 : ℚ) + min 2 (Sched.mkProc 1 "P1" 0 5).remaining →
          p ∈ front) :=
  ⟨⟨by decide, by decide, by decide, by decide⟩,
    round_robin_slice_and_admission.1 [Sched.mkProc 1 "P1" 0 3] 2 10
      [{ pid := 1, name := "P1", startTime := 0, endTime := 2
         colorIndex := 0 },
       { pid := 1, name := "P1", startTime := 2, endTime := 3
         colorIndex := 0 }]
      [{ pid := 1, name := "P1", arrival := 0, burst := 3, priority := 1
         remaining := 0, startTime := 0, finishTime := 3, waiting := 0
         turnaround := 3 }] 3
      (by decide) (by decide),
    round_robin_slice_and_admission.2 2 [] (Sched.mkProc 1 "P1" 0 5)
      { pending := [Sched.mkProc 2 "P2" 0 1], queue := [], clock := 0
        gantt := [], selfProcs := [] } (by decide) (by decide)⟩

namespace Sched

/-- The `min(..., key=...)` fold returns one of the candidates. -/
lemma srtfFold_mem :
    ∀ (xs : List (Nat × SProc)) (x : Nat × SProc),
      xs.foldl (fun best ip => if srtfKeyLt ip.2 best.2 then ip else best) x
        ∈ x :: xs := by
  intro xs
  induction xs with
  | nil => intro x; exact List.mem_cons_self x []
  | cons y ys ih =>
    intro x
    rw [List.foldl_cons]
    by_cases hf : srtfKeyLt y.2 x.2 = true
    · rw [if_pos hf]
      rcases List.mem_cons.1 (ih y) with h1 | h1
      · rw [h1]
        exact List.mem_cons_of_mem x (List.mem_cons_self y ys)
      · exact List.mem_cons_of_mem x (List.mem_cons_of_mem y h1)
    · rw [if_neg hf]
      rcases List.mem_cons.1 (ih x) with h1 | h1
      · rw [h1]
        exact List.mem_cons_self x (y :: ys)
      · exact List.mem_cons_of_mem x (List.mem_cons_of_mem y h1)

/-- A selected index points at an available process. -/
lemma selectIdx_sound (clock : ℚ) (procs : List SProc) (i : Nat)
    (h : selectIdx clock procs = some i) :
    ∃ sh, procs.get? i = some sh ∧ availB clock sh = true := by
  unfold selectIdx at h
  split at h
  · exact Option.noConfusion h
  next x xs heq =>
    have hmem := srtfFold_mem xs x
    rw [← heq] at hmem
    have hmem2 := List.mem_filter.1 hmem
    injection h with h
    subst h
    refine ⟨_, ?_, hmem2.2⟩
    rw [List.get?_eq_getElem?]
    exact List.mem_enum_iff_getElem?.1 hmem2.1

/-- If some process is available, selection succeeds. -/
lemma selectIdx_isSome_of_avail (clock : ℚ) (procs : List SProc) (p : SProc)
    (hp : p ∈ procs) (ha : availB clock p = true) :
    (selectIdx clock procs).isSome = true := by
  obtain ⟨n, hn⟩ := List.get_of_mem hp
  have henum : ((n : Nat), p) ∈ procs.enum := by
    rw [List.mk_mem_enum_iff_getElem?]
    rw [List.getElem?_eq_getElem n.isLt]
    simp [← hn, List.get_eq_getElem]
  have hfil : ((n : Nat), p) ∈
      procs.enum.filter (fun ip => availB clock ip.2) :=
    List.mem_filter.2 ⟨henum, ha⟩
  unfold selectIdx
  split
  next heq => exact absurd (heq ▸ hfil) (List.not_mem_nil _)
  next => rfl

/-- Counting a predicate across a single-index update. -/
lemma countP_set {α : Type} (p : α → Bool) :
    ∀ (l : List α) (i : Nat) (a b : α), l.get? i = some a →
      (l.set i b).countP p + (if p a then 1 else 0) =
        l.countP p + (if p b then 1 else 0)
  | [], _, _, _, h => Option.noConfusion h
  | x :: xs, 0, a, b, h => by
    injection h with h
    subst h
    rw [List.set_cons_zero, List.countP_cons, List.countP_cons]
    omega
  | x :: xs, i + 1, a, b, h => by
    have ih := countP_set p xs i a b h
    rw [List.set_cons_succ, List.countP_cons, List.countP_cons]
    omega

/-- Summing a weight function across a single-index update. -/
lemma sum_map_set {α : Type} (f : α → Nat) :
    ∀ (l : List α) (i : Nat) (a b : α), l.get? i = some a →
      ((l.set i b).map f).sum + f a = (l.map f).sum + f b
  | [], _, _, _, h => Option.noConfusion h
  | x :: xs, 0, a, b, h => by
    injection h with h
    subst h
    rw [List.set_cons_zero, List.map_cons, List.map_cons, List.sum_cons,
      List.sum_cons]
    omega
  | x :: xs, i + 1, a, b, h => by
    have ih := sum_map_set f xs i a b h
    rw [List.set_cons_succ, List.map_cons, List.map_cons, List.sum_cons,
      List.sum_cons]
    omega

/-- The arrival-minimum fold attains its value on one of the candidates. -/
lemma minArrival_attained :
    ∀ (ps : List SProc) (a : ℚ),
      ps.foldl (fun m q => if q.arrival < m then q.arrival else m) a = a ∨
        ∃ p ∈ ps,
          ps.foldl (fun m q => if q.arrival < m then q.arrival else m) a =
            p.arrival
  | [], _ => Or.inl rfl
  | q :: qs, a => by
    rw [List.foldl_cons]
    rcases minArrival_attained qs (if q.arrival < a then q.arrival else a)
      with h | ⟨p, hp, h⟩
    · by_cases hq : q.arrival < a
      · right
        exact ⟨q, List.mem_cons_self q qs, by rw [h, if_pos hq]⟩
      · left
        rw [h, if_neg hq]
    · right
      exact ⟨p, List.mem_cons_of_mem q hp, h⟩

/-- What one executed SRTF unit does to the working copy and the
completed count: the selected process loses one remaining unit, and the
count rises exactly when its remaining time lands on zero. -/
lemma srtfExec_shape (colorSrc : List SProc) (i : Nat) (st : SrtfState)
    (sh : SProc) (hget : st.procs.get? i = some sh) :
    ∃ sh' : SProc, (srtfExec colorSrc i st).procs = st.procs.set i sh' ∧
      sh'.remaining = sh.remaining - 1 ∧
      (srtfExec colorSrc i st).completedCount =
        (if sh.remaining - 1 = 0 then st.completedCount + 1
         else st.completedCount) := by
  simp only [srtfExec, hget]
  cases hl : st.lastP with
  | none =>
    simp only [Bool.true_and]
    by_cases hst : decide (sh.startTime < 0) = true
    · rw [if_pos hst]
      by_cases hz : sh.remaining - 1 = 0
      · rw [if_pos hz, if_pos hz]
        exact ⟨_, rfl, rfl, rfl⟩
      · rw [if_neg hz, if_neg hz]
        exact ⟨_, rfl, rfl, rfl⟩
    · rw [if_neg hst]
      by_cases hz : sh.remaining - 1 = 0
      · rw [if_pos hz, if_pos hz]
        exact ⟨_, rfl, rfl, rfl⟩
      · rw [if_neg hz, if_neg hz]
        exact ⟨_, rfl, rfl, rfl⟩
  | some lp =>
    by_cases hsw : (decide (lp.1 ≠ sh.pid) && decide (sh.startTime < 0)) = true
    · rw [if_pos hsw]
      by_cases hz : sh.remaining - 1 = 0
      · rw [if_pos hz, if_pos hz]
        exact ⟨_, rfl, rfl, rfl⟩
      · rw [if_neg hz, if_neg hz]
        exact ⟨_, rfl, rfl, rfl⟩
    · rw [if_neg hsw]
      by_cases hz : sh.remaining - 1 = 0
      · rw [if_pos hz, if_pos hz]
        exact ⟨_, rfl, rfl, rfl⟩
      · rw [if_neg hz, if_neg hz]
        exact ⟨_, rfl, rfl, rfl⟩

/-- `minArrival` is the arrival time of one of the candidates. -/
lemma minArrival_mem (p : SProc) (ps : List SProc) :
    ∃ r ∈ p :: ps, minArrival p ps = r.arrival := by
  unfold minArrival
  rcases minArrival_attained ps p.arrival with h | ⟨r, hr, h⟩
  · exact ⟨p, List.mem_cons_self p ps, h⟩
  · exact ⟨r, List.mem_cons_of_mem p hr, h⟩

/-- One executed SRTF unit preserves the whole-number invariant and pays
one unit of the remaining-time sum. -/
lemma srtfExec_inv (colorSrc : List SProc) (i : Nat) (st : SrtfState)
    (sh : SProc) (hget : st.procs.get? i = some sh)
    (havail : availB st.clock sh = true) (hinv : SrtfInv st) :
    SrtfInv (srtfExec colorSrc i st) ∧
      remSum (srtfExec colorSrc i st) + 1 = remSum st := by
  obtain ⟨sh', hprocs, hrem, hcc⟩ := srtfExec_shape colorSrc i st sh hget
  obtain ⟨k, hk⟩ := hinv.1 sh (List.get?_mem hget)
  have hpos : 0 < sh.remaining := by
    have h2 : (decide (sh.arrival ≤ st.clock) &&
        decide (0 < sh.remaining)) = true := havail
    rw [Bool.and_eq_true] at h2
    exact of_decide_eq_true h2.2
  have hkpos : 1 ≤ k := by
    rw [hk] at hpos
    exact_mod_cast hpos
  have hrem2 : sh'.remaining = ((k - 1 : Nat) : ℚ) := by
    rw [hrem, hk, Nat.cast_sub hkpos, Nat.cast_one]
  have hnat : ∀ p ∈ (srtfExec colorSrc i st).procs,
      ∃ m : Nat, p.remaining = (m : ℚ) := by
    intro p hp
    rw [hprocs] at hp
    rcases List.mem_or_eq_of_mem_set hp with h | h
    · exact hinv.1 p h
    · exact ⟨k - 1, h ▸ hrem2⟩
  have hcount :=
    countP_set (fun p => decide (0 < p.remaining)) st.procs i sh sh' hget
  have hsum :=
    sum_map_set (fun p => (⌊p.remaining⌋).toNat) st.procs i sh sh' hget
  have hfs : (⌊sh.remaining⌋).toNat = k := by
    rw [hk, Int.floor_natCast, Int.toNat_natCast]
  have hfs2 : (⌊sh'.remaining⌋).toNat = k - 1 := by
    rw [hrem2, Int.floor_natCast, Int.toNat_natCast]
  have hps : decide (0 < sh.remaining) = true := decide_eq_true hpos
  have hold := hinv.2
  by_cases hk1 : k = 1
  · have hz : sh.remaining - 1 = 0 := by
      rw [hk, hk1]
      norm_num
    have hps2 : decide (0 < sh'.remaining) = false := by
      rw [hrem2, hk1]
      norm_num
    rw [if_pos hz] at hcc
    simp [hps, hps2] at hcount
    simp only [hfs, hfs2] at hsum
    refine ⟨⟨hnat, ?_⟩, ?_⟩
    · rw [hcc, hprocs, List.length_set]
      omega
    · show remSum (srtfExec colorSrc i st) + 1 = remSum st
      unfold remSum
      rw [hprocs]
      omega
  · have hz : ¬(sh.remaining - 1 = 0) := by
      rw [hk]
      intro hcon
      apply hk1
      have h2 : (k : ℚ) = 1 := by linarith
      exact_mod_cast h2
    have hps2 : decide (0 < sh'.remaining) = true := by
      apply decide_eq_true
      rw [hrem2]
      have h2 : 0 < k - 1 := by omega
      exact_mod_cast h2
    rw [if_neg hz] at hcc
    simp [hps, hps2] at hcount
    simp only [hfs, hfs2] at hsum
    refine ⟨⟨hnat, ?_⟩, ?_⟩
    · rw [hcc, hprocs, List.length_set]
      omega
    · show remSum (srtfExec colorSrc i st) + 1 = remSum st
      unfold remSum
      rw [hprocs]
      omega

/-- After the idle jump to the next arrival, a process is available. -/
lemma srtf_idle_avail (st : SrtfState) (q : SProc) (qs : List SProc)
    (hfil : st.procs.filter (fun p => decide (0 < p.remaining)) = q :: qs) :
    (selectIdx (minArrival q qs) st.procs).isSome = true := by
  obtain ⟨r, hr, hmin⟩ := minArrival_mem q qs
  rw [← hfil] at hr
  have h2 := List.mem_filter.1 hr
  apply selectIdx_isSome_of_avail _ _ r h2.1
  unfold availB
  rw [Bool.and_eq_true]
  refine ⟨decide_eq_true ?_, h2.2⟩
  rw [hmin]

/-- The SRTF loop returns a result whenever its fuel exceeds the
measure, on states satisfying the whole-number invariant. -/
lemma srtfLoop_terminates (colorSrc : List SProc) :
    ∀ (fuel : Nat) (st : SrtfState), SrtfInv st → srtfMeasure st < fuel →
      ∃ res, srtfLoop colorSrc fuel st = some res
  | 0, _, _, hm => absurd hm (Nat.not_lt_zero _)
  | fuel + 1, st, hinv, hm => by
    rw [srtfLoop]
    split
    case isTrue hlt =>
      split
      next i hsel =>
        obtain ⟨sh, hget, havail⟩ := selectIdx_sound st.clock st.procs i hsel
        obtain ⟨hinv2, hsum⟩ := srtfExec_inv colorSrc i st sh hget havail hinv
        apply srtfLoop_terminates colorSrc fuel _ hinv2
        have h1 : srtfMeasure st = 2 * remSum st := by
          unfold srtfMeasure
          rw [hsel]
          simp
        have h2 : srtfMeasure (srtfExec colorSrc i st) ≤
            2 * remSum (srtfExec colorSrc i st) + 1 := by
          unfold srtfMeasure
          split <;> omega
        omega
      next hsel =>
        split
        next hfil =>
          exfalso
          have hcp : st.procs.countP (fun p => decide (0 < p.remaining)) = 0 := by
            rw [List.countP_eq_length_filter, hfil]
            rfl
          have hold := hinv.2
          omega
        next q qs hfil =>
          apply srtfLoop_terminates colorSrc fuel
            { st with clock := minArrival q qs } ⟨hinv.1, hinv.2⟩
          have h1 : srtfMeasure st = 2 * remSum st + 1 := by
            unfold srtfMeasure
            rw [hsel]
            simp
          have havail2 := srtf_idle_avail st q qs hfil
          have hrs : remSum { st with clock := minArrival q qs } = remSum st :=
            rfl
          have h2 : srtfMeasure { st with clock := minArrival q qs } =
              2 * remSum st := by
            unfold srtfMeasure
            rw [hrs, havail2]
            simp
          omega
    case isFalse hlt => exact ⟨_, rfl⟩

/-- On positive whole-number bursts, `sjf(preemptive=True)` finishes
within `srtfFuel` loop iterations. -/
lemma sjfPreemptive_total (procs : List SProc)
    (h : ∀ p ∈ procs, ∃ k : Nat, p.burst = (k : ℚ) ∧ 0 < k) :
    ∃ res, sjfPreemptive procs (srtfFuel procs) = some res := by
  show ∃ res, (if (resetProcs procs).isEmpty = true then
      some (([] : List GanttBlock), ([] : List SProc), (0 : ℚ))
    else
      srtfLoop (resetProcs procs) (srtfFuel procs)
        { procs := resetProcs procs, clock := 0, completedCount := 0
          lastP := none, lastStart := 0, gantt := []
          selfProcs := resetProcs procs }) = some res
  split
  next => exact ⟨_, rfl⟩
  next =>
    apply srtfLoop_terminates
    · refine ⟨?_, ?_⟩
      · intro p hp
        obtain ⟨p0, hp0, hpe⟩ := List.mem_map.1 hp
        obtain ⟨k, hk, _⟩ := h p0 hp0
        refine ⟨k, ?_⟩
        rw [← hpe]
        exact hk
      · show 0 + (resetProcs procs).countP (fun p => decide (0 < p.remaining))
          = (resetProcs procs).length
        rw [Nat.zero_add, List.countP_eq_length]
        intro p hp
        obtain ⟨p0, hp0, hpe⟩ := List.mem_map.1 hp
        obtain ⟨k, hk, hkpos⟩ := h p0 hp0
        apply decide_eq_true
        rw [← hpe]
        show (0 : ℚ) < p0.burst
        rw [hk]
        exact_mod_cast hkpos
    · have hsum0 :
          remSum
            { procs := resetProcs procs, clock := 0, completedCount := 0
              lastP := none, lastStart := 0, gantt := []
              selfProcs := resetProcs procs } =
            (procs.map (fun p => (⌊p.burst⌋).toNat)).sum := by
        unfold remSum resetProcs
        simp only [List.map_map]
        rfl
      unfold srtfFuel srtfMeasure
      split <;> omega

/-- The stuck state repeats: one more unit of fuel is simply consumed. -/
lemma srtfHalfStuck_step (fuel : Nat) :
    srtfLoop srtfHalfBase (fuel + 1) srtfHalfStuck =
      srtfLoop srtfHalfBase fuel srtfHalfStuck := rfl

/-- The SRTF loop never leaves the stuck state, whatever the fuel. -/
lemma srtfHalfStuck_none :
    ∀ fuel : Nat, srtfLoop srtfHalfBase fuel srtfHalfStuck = none
  | 0 => rfl
  | fuel + 1 => (srtfHalfStuck_step fuel).trans (srtfHalfStuck_none fuel)

end Sched

/-- C1: refuted — `sjf(preemptive=True)` is not total on arbitrary
non-negative burst times. On the single process `(P1, arrival 0,
burst 0.5)` the one-unit decrement drives the remaining time from `1/2`
to `-1/2` without ever reaching exactly `0`, after which no process is
available and none is completed, so the `while completed_count < n`
loop never exits, however long it runs. -/
theorem srtf_diverges_on_fractional_burst :
    ¬ Sched.srtfTerminates [Sched.mkProc 1 "P1" 0 (1/2)] := by
  rintro ⟨fuel, res, h⟩
  cases fuel with
  | zero =>
    have h2 : (none : Option (List Sched.GanttBlock × List Sched.SProc × ℚ)) =
        some res := h
    exact Option.noConfusion h2
  | succ fuel =>
    have h2 : Sched.srtfLoop Sched.srtfHalfBase fuel Sched.srtfHalfStuck =
        some res := h
    rw [Sched.srtfHalfStuck_none fuel] at h2
    exact Option.noConfusion h2

/-- C1 (amended): when every burst time is a positive whole number, the
preemptive SJF (SRTF) scheduler does terminate: `srtfFuel` loop
iterations always suffice for `sjf(preemptive=True)` to return its
`(timeline, updated_descriptors, clock)` result. -/
theorem srtf_terminates_on_positive_integer_bursts
    (procs : List Sched.SProc)
    (h : ∀ p ∈ procs, ∃ k : Nat, p.burst = (k : ℚ) ∧ 0 < k) :
    ∃ res, Sched.sjfPreemptive procs (Sched.srtfFuel procs) = some res :=
  Sched.sjfPreemptive_total procs h

/-- Witness for the amended C1 theorem: the process set
`[(P1, arrival 0, burst 2), (P2, arrival 1, burst 1)]` has positive
whole-number bursts, so the scheduler terminates on it. -/
theorem srtf_terminates_on_positive_integer_bursts_witness :
    (∀ p ∈ [Sched.mkProc 1 "P1" 0 2, Sched.mkProc 2 "P2" 1 1],
      ∃ k : Nat, p.burst = (k : ℚ) ∧ 0 < k) ∧
    ∃ res,
      Sched.sjfPreemptive [Sched.mkProc 1 "P1" 0 2, Sched.mkProc 2 "P2" 1 1]
        (Sched.srtfFuel [Sched.mkProc 1 "P1" 0 2, Sched.mkProc 2 "P2" 1 1]) =
      some res := by
  have h : ∀ p ∈ [Sched.mkProc 1 "P1" 0 2, Sched.mkProc 2 "P2" 1 1],
      ∃ k : Nat, p.burst = (k : ℚ) ∧ 0 < k := by
    intro p hp
    rcases List.mem_cons.1 hp with hpe | hp2
    · exact ⟨2, by rw [hpe]; decide, by decide⟩
    · rcases List.mem_cons.1 hp2 with hpe | hp3
      · exact ⟨1, by rw [hpe]; decide, by decide⟩
      · exact absurd hp3 (List.not_mem_nil p)
  exact ⟨h, srtf_terminates_on_positive_integer_bursts _ h⟩
